import Mathlib

/-!
Verification of pycrab's morphology module (`pycrab/morphology.py`,
`pycrab/null_affix.py`, `pycrab/utils.py`).

The Python code is shallowly embedded: strings are lists of characters,
Python `dict`s (insertion-ordered, unique keys) are association lists with
upsert semantics, Python `set`s are duplicate-free lists in insertion order,
and exceptions (`KeyError`, `ValueError`) are `Option`/`Except` results.
The `NULLAffix` singleton is a `str` subclass that compares, sorts and
concatenates exactly like the empty string and only displays as "NULL";
it is therefore embedded as the empty string together with an explicit
`display` function.  The per-word debug scratchpad (a write-only list of
free-text notes never read by any algorithm) is omitted from the model.
-/

namespace Pycrab

/-- Embedded Python string: a list of characters. -/
abbrev Str := List Char

/-- Turn a Lean string literal into an embedded string. -/
def lit (s : String) : Str := s.data

/-- Python string comparison, `a < b` (lexicographic on code points). -/
def strLt : Str → Str → Bool
  | [], [] => false
  | [], _ :: _ => true
  | _ :: _, [] => false
  | a :: as, b :: bs =>
      if a < b then true else if b < a then false else strLt as bs

/-- Python string comparison, `a <= b`. -/
def strLe (a b : Str) : Bool := !(strLt b a)

/-- Python tuple comparison on pairs of strings, `a <= b`. -/
def pairLe (a b : Str × Str) : Bool :=
  if a.1 = b.1 then strLe a.2 b.2 else strLt a.1 b.1

/-- Stable insertion of an element into a list sorted by `le`. -/
def insertLe (le : α → α → Bool) (x : α) : List α → List α
  | [] => [x]
  | y :: ys => if le x y then x :: y :: ys else y :: insertLe le x ys

/-- Stable sort (insertion sort); `le x y = true` must hold for equal keys
so that elements with equal keys keep their original relative order, as in
Python's stable `sorted`/`list.sort`. -/
def sortBy (le : α → α → Bool) (l : List α) : List α :=
  l.foldr (insertLe le) []

/-- `morphology.AFFIX_MARKER` (the affix disambiguation-index delimiter,
written `AFFIX_INDEX_DELIMITER` in `utils.strip_index`). -/
def AFFIX_MARKER : Char := ':'

/-- `morphology.AFFIX_DELIMITER` (the separator in affix strings). -/
def AFFIX_DELIMITER : Char := '='

/-- `morphology.NULL_AFFIX`: behaves as the empty string everywhere except
for display. -/
def NULL_AFFIX : Str := []

/-- `str(affix)` in Python: the NULL affix prints as "NULL", every other
string prints as itself. -/
def display (m : Str) : Str := if m = [] then lit "NULL" else m

/-- `utils.strip_index`: the affix up to (excluding) the first occurrence of
the affix-index delimiter; the whole affix when the delimiter is absent
(the NULL affix, being empty, is returned unchanged either way). -/
def strip_index (affix : Str) : Str := affix.takeWhile (· ≠ AFFIX_MARKER)

/-- A string free of the affix-index delimiter. -/
def noMarker (s : Str) : Prop := AFFIX_MARKER ∉ s

instance (s : Str) : Decidable (noMarker s) := by
  unfold noMarker; infer_instance

/-- Python slice `s[-n:]` (note the quirk: for `n = 0` Python computes
`s[0:]`, i.e. the whole string, not the empty one). -/
def pySliceLastN (n : Nat) (s : Str) : Str :=
  if n = 0 then s else s.drop (s.length - n)

/-- Python slice `s[:-n]` (same quirk: for `n = 0` Python computes `s[:0]`,
the empty string). -/
def pySliceDropLastN (n : Nat) (s : Str) : Str :=
  if n = 0 then [] else s.take (s.length - n)

/-- `os.path.commonprefix` of two strings. -/
def commonStart : Str → Str → Str
  | a :: as, b :: bs => if a = b then a :: commonStart as bs else []
  | _, _ => []

/-- Digit-by-digit worker for `natRepr`; the fuel argument makes the
recursion structural (any fuel above the digit count gives the full
rendering). -/
def natReprAux : Nat → Nat → Str
  | 0, _ => []
  | fuel + 1, n =>
      if n < 10 then [Nat.digitChar n]
      else natReprAux fuel (n / 10) ++ [Nat.digitChar (n % 10)]

/-- Decimal rendering of a natural number (Python `"%i" % n`). -/
def natRepr (n : Nat) : Str := natReprAux (n + 1) n

/-- Affix side: suffixal (default) or prefixal analysis. -/
inductive Side where
  | suffixal : Side
  | prefixal : Side
deriving DecidableEq, Repr

/-- Python dict as an insertion-ordered association list with unique keys:
`d[k] = v` keeps the position of an existing key and appends a new one. -/
def upsert [DecidableEq K] (k : K) (v : V) : List (K × V) → List (K × V)
  | [] => [(k, v)]
  | (k₀, v₀) :: rest =>
      if k₀ = k then (k, v) :: rest else (k₀, v₀) :: upsert k v rest

/-- Python dict lookup returning an `Option` (`None` models `KeyError`). -/
def alookup [DecidableEq K] (k : K) : List (K × V) → Option V
  | [] => none
  | (k₀, v₀) :: rest => if k₀ = k then some v₀ else alookup k rest

/-- `collections.Counter` indexing: missing keys count as 0. -/
def countOf (k : Str) (d : List (Str × Nat)) : Nat := (alookup k d).getD 0

/-- `counter[k] += n`. -/
def counterAdd (k : Str) (n : Nat) (d : List (Str × Nat)) : List (Str × Nat) :=
  upsert k (countOf k d + n) d

/-- Python set as a duplicate-free list in insertion order: adding an
already-present element is a no-op. -/
def setAdd [DecidableEq α] (x : α) (s : List α) : List α :=
  if x ∈ s then s else s ++ [x]

/-- `set.discard` / `set.remove`: drop an element. -/
def setDiscard [DecidableEq α] (x : α) (s : List α) : List α :=
  s.filter (· ≠ x)

/-- `set.union` (left operand's insertion order first). -/
def setUnion [DecidableEq α] (s t : List α) : List α :=
  t.foldl (fun acc x => setAdd x acc) s

/-- `dict(zip(ks, vs))`: pair up two lists, later duplicates of a key
overwrite the value stored at the key's first position.  Used for the
stripped stems/affixes of a signature, where distinct indexed morphemes
may collapse onto one stripped spelling. -/
def dictZip (ks : List Str) (vs : List Nat) : List (Str × Nat) :=
  (List.zip ks vs).foldl (fun acc kv => upsert kv.1 kv.2 acc) []

/-- Keys of a dict, in order. -/
def keysOf (d : List (K × V)) : List K := d.map (·.1)

end Pycrab

namespace Pycrab

/-- Join a list of strings with a separator (Python `sep.join(parts)`). -/
def sjoin (sep : Str) (parts : List Str) : Str := List.intercalate sep parts

/-- `pycrab.morphology.Parse`: an ordered tuple of morphemes. -/
structure Parse where
  morphemes : List Str
deriving DecidableEq, Repr

/-- `Parse.__str__`: space-joined display forms of the morphemes (the NULL
affix displays as "NULL"). -/
def Parse.key (p : Parse) : Str := sjoin [' '] (p.morphemes.map display)

/-- `Parse.__eq__` compares display strings, not morpheme tuples. -/
def Parse.eqb (p q : Parse) : Bool := p.key = q.key

/-- Adding a parse to a Python set: no-op when an equal parse is present. -/
def parseSetAdd (p : Parse) (s : List Parse) : List Parse :=
  if s.any (Parse.eqb p) then s else s ++ [p]

/-- Discarding a parse from a Python set. -/
def parseSetDiscard (p : Parse) (s : List Parse) : List Parse :=
  s.filter (fun q => !Parse.eqb p q)

/-- `pycrab.morphology.Signature`: a dict of stems with counts, a dict of
affixes with counts, and an affix side.  The stripped stems/affixes that
Python precomputes in `__new__` are recomputed on demand here (the object
is immutable, so the two presentations agree). -/
structure Sig where
  stems : List (Str × Nat)
  affixes : List (Str × Nat)
  affix_side : Side
deriving DecidableEq, Repr

namespace Sig

/-- `dict(zip([strip_index(s) for s in stems], stems.values()))`. -/
def stripped_stems (sig : Sig) : List (Str × Nat) :=
  dictZip ((keysOf sig.stems).map strip_index) (sig.stems.map (·.2))

/-- `dict(zip([strip_index(a) for a in affixes], affixes.values()))`. -/
def stripped_affixes (sig : Sig) : List (Str × Nat) :=
  dictZip ((keysOf sig.affixes).map strip_index) (sig.affixes.map (·.2))

/-- `Signature.affix_string`: delimiter-joined display forms of the sorted
affixes. -/
def affix_string (sig : Sig) : Str :=
  sjoin [AFFIX_DELIMITER] ((sortBy strLe (keysOf sig.affixes)).map display)

/-- `Signature.bigrams`: cartesian product of stems and affixes, oriented
`(stem, suffix)` or `(prefix, stem)` according to the affix side. -/
def bigrams (sig : Sig) : List (Str × Str) :=
  match sig.affix_side with
  | Side.suffixal =>
      (keysOf sig.stems).flatMap (fun s => (keysOf sig.affixes).map (fun a => (s, a)))
  | Side.prefixal =>
      (keysOf sig.affixes).flatMap (fun a => (keysOf sig.stems).map (fun s => (a, s)))

/-- `Signature._compute_robustness`: letters saved by the signature,
`len("".join(stripped_stems)) * (len(stripped_affixes) - 1)
 + len("".join(stripped_affixes)) * (len(stripped_stems) - 1)`,
computed over the stripped stems and affixes. -/
def robustness (sig : Sig) : Int :=
  ((sjoin [] (keysOf sig.stripped_stems)).length : Int)
      * (((keysOf sig.stripped_affixes).length : Int) - 1)
    + ((sjoin [] (keysOf sig.stripped_affixes)).length : Int)
      * (((keysOf sig.stripped_stems).length : Int) - 1)

/-- `Signature.contains`: all affixes named by `affix_string` (split at the
delimiter) occur among this signature's displayed affixes. -/
def contains (sig : Sig) (affix_string : Str) : Bool :=
  (affix_string.splitOn AFFIX_DELIMITER).all
    (fun part => (keysOf sig.affixes).any (fun a => display a = part))

/-- The `collections.Counter` of final `num_letters`-letter sequences of the
stripped stems, over which `get_edge_entropy` computes the entropy. -/
def edge_entropy_counts (sig : Sig) (num_letters : Nat) : List (Str × Nat) :=
  (keysOf sig.stripped_stems).foldl
    (fun acc stem => counterAdd (pySliceLastN num_letters stem) 1 acc) []

end Sig

/-- The numeric value `utils.entropy` computes once `math.log(my_sum)` has
succeeded: Shannon entropy (in bits) of a dict of counts; zero counts are
skipped. -/
noncomputable def entropyVal (counts : List (Str × Nat)) : ℝ :=
  let pos := (counts.map (·.2)).filter (· ≠ 0)
  let s : ℝ := (pos.sum : Nat)
  let weighted : ℝ := (pos.map (fun c => (c : ℝ) * Real.log c)).sum
  |(Real.log s - weighted / s) / Real.log 2|

/-- `utils.entropy`: when every count is zero (in particular on an empty
counter), `my_sum` stays 0 and `math.log(0)` raises
`ValueError: math domain error`; otherwise the entropy value is
returned. -/
noncomputable def entropy (counts : List (Str × Nat)) : Except Str ℝ :=
  if ((counts.map (·.2)).filter (· ≠ 0)).sum = 0
  then Except.error (lit "math domain error")
  else Except.ok (entropyVal counts)

/-- `Signature.get_edge_entropy`: a `ValueError` when some stripped stem is
shorter than `num_letters`, otherwise the result of `utils.entropy` on the
final-sequence counts — which itself raises the math-domain `ValueError`
when the signature has no stems at all. -/
noncomputable def Sig.get_edge_entropy (sig : Sig) (num_letters : Nat) :
    Except Str ℝ :=
  if (keysOf sig.stripped_stems).any (fun stem => stem.length < num_letters)
  then Except.error (lit "Signature contains stems shorter than required number of letters for entropy calculation")
  else entropy (sig.edge_entropy_counts num_letters)

/-- `MIN_ENTROPY_FOR_BIPARSE_INCLUSION = 1.5`, as a decidable test on the
counts: for positive counts `c` with sum `S`, the entropy
`(log S - (Σ c·log c)/S) / log 2` is at least `3/2` exactly when
`(S^S)^2 ≥ 2^(3·S) · (Π c^c)^2`. -/
def entropyGateCounts (counts : List Nat) : Bool :=
  let pos := counts.filter (· ≠ 0)
  let s := pos.sum
  2 ^ (3 * s) * (pos.foldl (fun acc c => acc * c ^ c) 1) ^ 2 ≤ (s ^ s) ^ 2

/-- The biparse admission test of `split_affixes`:
`sig.get_edge_entropy() >= MIN_ENTROPY_FOR_BIPARSE_INCLUSION`, with `none`
modelling the `ValueError` raised on an empty stem dict or an empty stripped
stem. -/
def Sig.edge_entropy_gate (sig : Sig) : Option Bool :=
  if (keysOf sig.stripped_stems).any (fun stem => stem.length < 1)
      ∨ sig.stripped_stems = []
  then none
  else some (entropyGateCounts ((sig.edge_entropy_counts 1).map (·.2)))

end Pycrab

namespace Pycrab

/-- `pycrab.morphology.Word`: surface form, corpus count, the two biography
dicts (learning-function name → set of parses) and the two current parse
sets.  In Python `add_to_biography`/`discard_from_biography` rebind the
current parse set to the biography entry they just touched; the model
mirrors that by overwriting the parse-set field with the updated entry.
The free-text scratchpad is omitted. -/
structure Word where
  form : Str
  count : Nat
  suffixal_biography : List (Str × List Parse)
  prefixal_biography : List (Str × List Parse)
  suffixal_parses : List Parse
  prefixal_parses : List Parse
deriving DecidableEq, Repr

namespace Word

/-- `Word.__init__`. -/
def init (form : Str) (count : Nat) : Word :=
  ⟨form, count, [], [], [], []⟩

/-- `Word.get_biography`: look the function name up in the requested side's
biography dict, inserting an empty set first when it is missing (a mutation
performed even on reads, hence the updated word is returned too). -/
def get_biography (w : Word) (function : Str) (side : Side) :
    List Parse × Word :=
  match side with
  | Side.prefixal =>
      match alookup function w.prefixal_biography with
      | some parses => (parses, w)
      | none =>
          ([], { w with prefixal_biography :=
                   upsert function [] w.prefixal_biography })
  | Side.suffixal =>
      match alookup function w.suffixal_biography with
      | some parses => (parses, w)
      | none =>
          ([], { w with suffixal_biography :=
                   upsert function [] w.suffixal_biography })

/-- `Word.add_to_biography`. -/
def add_to_biography (w : Word) (function : Str) (parse : Parse)
    (side : Side) : Word :=
  let entry := (w.get_biography function side).1
  let entry := parseSetAdd parse entry
  match side with
  | Side.prefixal =>
      { w with prefixal_biography := upsert function entry w.prefixal_biography
               prefixal_parses := entry }
  | Side.suffixal =>
      { w with suffixal_biography := upsert function entry w.suffixal_biography
               suffixal_parses := entry }

/-- `Word.discard_from_biography`. -/
def discard_from_biography (w : Word) (function : Str) (parse : Parse)
    (side : Side) : Word :=
  let entry := (w.get_biography function side).1
  let entry := parseSetDiscard parse entry
  match side with
  | Side.prefixal =>
      { w with prefixal_biography := upsert function entry w.prefixal_biography
               prefixal_parses := entry }
  | Side.suffixal =>
      { w with suffixal_biography := upsert function entry w.suffixal_biography
               suffixal_parses := entry }

/-- `Word.get_parses`: the current parse set of the requested side, or the
singleton one-morpheme parse made of the word's own form when that set is
empty. -/
def get_parses (w : Word) (side : Side) : List Parse :=
  match side with
  | Side.prefixal =>
      if w.prefixal_parses = [] then [Parse.mk [w.form]] else w.prefixal_parses
  | Side.suffixal =>
      if w.suffixal_parses = [] then [Parse.mk [w.form]] else w.suffixal_parses

end Word

/-- `pycrab.morphology.Family`: a nucleus affix string, the child affix
strings, and an affix side (the back-reference to the owning morphology,
used only for display, is omitted). -/
structure Family where
  nucleus : Str
  children : List Str
  affix_side : Side
deriving DecidableEq, Repr

/-- `pycrab.morphology.Morphology`: the lexicon plus, for each affix side,
the signature dict, the families, the protostems with their continuations,
the affix name-collision counter, and the list of analyses run. -/
structure Morphology where
  lexicon : List (Str × Word)
  prefixal_signatures : List (Str × Sig)
  prefixal_families : List Family
  prefixal_protostems : List (Str × List Str)
  prefixal_name_collisions : List (Str × Nat)
  prefixal_analyses_run : List Str
  suffixal_signatures : List (Str × Sig)
  suffixal_families : List Family
  suffixal_protostems : List (Str × List Str)
  suffixal_name_collisions : List (Str × Nat)
  suffixal_analyses_run : List Str
deriving DecidableEq, Repr

namespace Morphology

/-- `Morphology.reset`: every attribute becomes empty. -/
def reset (_m : Morphology) : Morphology :=
  ⟨[], [], [], [], [], [], [], [], [], [], []⟩

/-- The requested side's signature dict. -/
def sig_dict (m : Morphology) (side : Side) : List (Str × Sig) :=
  match side with
  | Side.prefixal => m.prefixal_signatures
  | Side.suffixal => m.suffixal_signatures

/-- Replace the requested side's signature dict. -/
def set_sig_dict (m : Morphology) (side : Side) (d : List (Str × Sig)) :
    Morphology :=
  match side with
  | Side.prefixal => { m with prefixal_signatures := d }
  | Side.suffixal => { m with suffixal_signatures := d }

/-- `Morphology.get_signatures`: the signature dict's values. -/
def get_signatures (m : Morphology) (side : Side) : List Sig :=
  (m.sig_dict side).map (·.2)

/-- `Morphology.get_protostems`. -/
def get_protostems (m : Morphology) (side : Side) : List (Str × List Str) :=
  match side with
  | Side.prefixal => m.prefixal_protostems
  | Side.suffixal => m.suffixal_protostems

/-- Replace the requested side's protostem dict. -/
def set_protostems (m : Morphology) (side : Side)
    (d : List (Str × List Str)) : Morphology :=
  match side with
  | Side.prefixal => { m with prefixal_protostems := d }
  | Side.suffixal => { m with suffixal_protostems := d }

/-- `Morphology.get_analyses_list`. -/
def get_analyses_list (m : Morphology) (side : Side) : List Str :=
  match side with
  | Side.prefixal => m.prefixal_analyses_run
  | Side.suffixal => m.suffixal_analyses_run

/-- Append an analysis name to the requested side's list. -/
def mark_analysis_run (m : Morphology) (side : Side) (func : Str) :
    Morphology :=
  match side with
  | Side.prefixal =>
      { m with prefixal_analyses_run := m.prefixal_analyses_run ++ [func] }
  | Side.suffixal =>
      { m with suffixal_analyses_run := m.suffixal_analyses_run ++ [func] }

/-- The name of an affix side as interpolated into Python messages. -/
def sideName (side : Side) : Str :=
  match side with
  | Side.prefixal => lit "prefix"
  | Side.suffixal => lit "suffix"

/-- The `ValueError` message raised by `Morphology.get_signature`:
`"No %sal signature matches the requested affix string" % affix_side`. -/
def no_signature_message (side : Side) : Str :=
  lit "No " ++ sideName side
    ++ lit "al signature matches the requested affix string"

/-- `Morphology.get_signature`: the stored signature for an affix string, or
a `ValueError` carrying the message above. -/
def get_signature (m : Morphology) (affix_string : Str) (side : Side) :
    Except Str Sig :=
  match alookup affix_string (m.sig_dict side) with
  | some sig => Except.ok sig
  | none => Except.error (no_signature_message side)

/-- `Morphology.get_bigrams`: union of the bigram sets of all signatures of
the requested side. -/
def get_bigrams (m : Morphology) (side : Side) : List (Str × Str) :=
  (m.get_signatures side).foldl (fun acc sig => setUnion acc sig.bigrams) []

/-- `Morphology.add_new_index`: a fresh disambiguated name for a non-NULL,
not-yet-indexed affix; bumps the side's collision counter.  The index goes
after the affix for suffixes and before it for prefixes. -/
def add_new_index (m : Morphology) (affix : Str) (side : Side) :
    Str × Morphology :=
  if affix = NULL_AFFIX ∨ AFFIX_MARKER ∈ affix then (affix, m)
  else
    match side with
    | Side.prefixal =>
        let n := countOf affix m.prefixal_name_collisions + 1
        (natRepr n ++ [AFFIX_MARKER] ++ affix,
         { m with prefixal_name_collisions :=
             upsert affix n m.prefixal_name_collisions })
    | Side.suffixal =>
        let n := countOf affix m.suffixal_name_collisions + 1
        (affix ++ [AFFIX_MARKER] ++ natRepr n,
         { m with suffixal_name_collisions :=
             upsert affix n m.suffixal_name_collisions })

/-- `Morphology.add_signature`: store a new signature under its affix string
(the debug note `add_signature` pushes onto covered words' scratchpads is
omitted with the scratchpad itself). -/
def add_signature (m : Morphology) (stems affixes : List (Str × Nat))
    (side : Side) : Morphology :=
  let sig : Sig := ⟨stems, affixes, side⟩
  m.set_sig_dict side (upsert sig.affix_string sig (m.sig_dict side))

/-- The stem of a bigram (`(stem, suffix)` or `(prefix, stem)`). -/
def bigramStem (side : Side) (bg : Str × Str) : Str :=
  match side with
  | Side.suffixal => bg.1
  | Side.prefixal => bg.2

/-- The affix of a bigram. -/
def bigramAffix (side : Side) (bg : Str × Str) : Str :=
  match side with
  | Side.suffixal => bg.2
  | Side.prefixal => bg.1

/-- First grouping pass of `build_signatures`: all possible affixes of
each stem (`affixes[stem].add(affix)` over the sorted bigrams). -/
def stem_to_affixes (side : Side) (bigrams : List (Str × Str)) :
    List (Str × List Str) :=
  (sortBy pairLe bigrams).foldl
    (fun acc bg =>
      upsert (bigramStem side bg)
        (setAdd (bigramAffix side bg)
          ((alookup (bigramStem side bg) acc).getD []))
        acc)
    []

/-- Second grouping pass of `build_signatures`: all stems associated with
each (sorted) affix list. -/
def stem_sets_of (d : List (Str × List Str)) :
    List (List Str × List Str) :=
  d.foldl
    (fun acc sa =>
      upsert (sortBy strLe sa.2)
        (setAdd sa.1 ((alookup (sortBy strLe sa.2) acc).getD [])) acc)
    []

/-- The morpheme counts that `Morphology.build_signatures` draws from the
lexicon: every morpheme of every current parse of a word is credited with
the word's corpus count. -/
def morpheme_counts (m : Morphology) (side : Side) : List (Str × Nat) :=
  m.lexicon.foldl
    (fun acc kw =>
      (kw.2.get_parses side).foldl
        (fun acc parse =>
          parse.morphemes.foldl
            (fun acc mor => counterAdd mor kw.2.count acc) acc)
        acc)
    []

/-- `Morphology.build_signatures`: replace the requested side's signature
dict with one signature per set of stems sharing an affix set, keeping only
sets with at least `min_num_stems` stems; counts are attached from the
lexicon's morpheme counts when the lexicon yields any, else bare
membership (count 1 via `Counter`). -/
def build_signatures (m : Morphology) (bigrams : List (Str × Str))
    (side : Side) (min_num_stems : Nat) : Morphology :=
  let m := m.set_sig_dict side []
  let counts := m.morpheme_counts side
  (stem_sets_of (stem_to_affixes side bigrams)).foldl
    (fun m as =>
      if min_num_stems ≤ as.2.length then
        if counts ≠ [] then
          m.add_signature (as.2.map (fun s => (s, countOf s counts)))
            (as.1.map (fun a => (a, countOf a counts))) side
        else
          m.add_signature (as.2.map (fun s => (s, 1)))
            (as.1.map (fun a => (a, 1))) side
      else m)
    m

end Morphology

end Pycrab

namespace Pycrab

/-- `MIN_NUM_STEMS`. -/
def MIN_NUM_STEMS : Nat := 2

/-- `MIN_STEM_LEN`. -/
def MIN_STEM_LEN : Nat := 4

/-- `NUM_SEED_FAMILIES`. -/
def NUM_SEED_FAMILIES : Nat := 30

/-- `MIN_ROBUSTNESS_FOR_FAMILY_INCLUSION`. -/
def MIN_ROBUSTNESS_FOR_FAMILY_INCLUSION : Int := 100

/-- All ordered pairs `(l[i], l[j])` with `i < j`
(`itertools.combinations(l, 2)`). -/
def combos2 : List α → List (α × α)
  | [] => []
  | x :: xs => xs.map (fun y => (x, y)) ++ combos2 xs

/-- `x.issubset(y)` on Python sets embedded as lists. -/
def listSubset [DecidableEq α] (x y : List α) : Bool := x.all (· ∈ y)

namespace Morphology

/-- Add a parse to the biography of the lexicon entry for `word`
(`self.lexicon[word].add_to_biography(...)`); `none` models the `KeyError`
on a missing word. -/
def lex_add_to_biography (m : Morphology) (word : Str) (func : Str)
    (parse : Parse) (side : Side) : Option Morphology := do
  let w ← alookup word m.lexicon
  pure { m with lexicon :=
           upsert word (w.add_to_biography func parse side) m.lexicon }

/-- Discard a parse from the biography of the lexicon entry for `word`;
`none` models the `KeyError` on a missing word. -/
def lex_discard_from_biography (m : Morphology) (word : Str) (func : Str)
    (parse : Parse) (side : Side) : Option Morphology := do
  let w ← alookup word m.lexicon
  pure { m with lexicon :=
           upsert word (w.discard_from_biography func parse side) m.lexicon }

/-- Biography update shared by `find_signatures1` and
`find_good_signatures_inside_bad`:
`self.lexicon["".join(bigram)].add_to_biography(func, Parse(bigram), side)`. -/
def bigram_bio_add (func : Str) (side : Side) (m : Morphology)
    (bg : Str × Str) : Option Morphology :=
  m.lex_add_to_biography (bg.1 ++ bg.2) func (Parse.mk [bg.1, bg.2]) side

/-- Per-continuation-list step of `find_signatures1`: validate the
candidate bigrams of a group with enough protostems, or store the leftover
protostems with their continuation sets. -/
def find_signatures1_step (side : Side) (min_num_stems : Nat)
    (acc : List (Str × Str) × Morphology) (cp : List Str × List Str) :
    List (Str × Str) × Morphology :=
  let (validated, m) := acc
  let protostems := match side with
    | Side.prefixal => cp.2.map List.reverse
    | Side.suffixal => cp.2
  let continuations := match side with
    | Side.prefixal => cp.1.map List.reverse
    | Side.suffixal => cp.1
  let continuations :=
    continuations.map (fun c => if c.length = 0 then NULL_AFFIX else c)
  let candidate_bigrams := match side with
    | Side.suffixal =>
        protostems.flatMap (fun p => continuations.map (fun c => (p, c)))
    | Side.prefixal =>
        continuations.flatMap (fun c => protostems.map (fun p => (c, p)))
  if min_num_stems ≤ protostems.length then
    (setUnion validated candidate_bigrams, m)
  else
    (validated,
     m.set_protostems side
       (protostems.foldl
         (fun d p =>
           upsert p (continuations.foldl (fun a c => setAdd c a) []) d)
         (m.get_protostems side)))

/-- `Morphology.find_signatures1` (initial signature discovery); `none`
models a `KeyError` on a lexicon access. -/
def find_signatures1 (m : Morphology) (min_stem_len min_num_stems : Nat)
    (side : Side) : Option Morphology := do
  let func := lit "find_signatures1"
  -- Invert words if needed (if affix side is prefix), then sort them.
  let sorted_words :=
    match side with
    | Side.suffixal => sortBy strLe (keysOf m.lexicon)
    | Side.prefixal => sortBy strLe ((keysOf m.lexicon).map List.reverse)
  -- Longest common prefixes of successive words that are long enough.
  let protostems : List Str :=
    (List.zip sorted_words (sorted_words.drop 1)).foldl
      (fun acc ab =>
        let protostem := commonStart ab.1 ab.2
        if min_stem_len ≤ protostem.length then setAdd protostem acc else acc)
      []
  -- All possible continuations of each protostem.
  let continuations : List (Str × List Str) :=
    sorted_words.foldl
      (fun acc word =>
        (List.range' min_stem_len (word.length + 1 - min_stem_len)).foldl
          (fun acc plen =>
            if word.take plen ∈ protostems then
              upsert (word.take plen)
                ((alookup (word.take plen) acc).getD [] ++ [word.drop plen])
                acc
            else acc)
          acc)
      []
  -- All stems associated with each continuation list.
  let protostem_lists : List (List Str × List Str) :=
    continuations.foldl
      (fun acc pc =>
        upsert (sortBy strLe pc.2)
          (setAdd pc.1 ((alookup (sortBy strLe pc.2) acc).getD [])) acc)
      []
  -- Validate candidate bigrams or store leftover protostems.
  let vm := protostem_lists.foldl (find_signatures1_step side min_num_stems)
    ([], m)
  -- Update biography of analyzed words.
  let m ← vm.1.foldlM (bigram_bio_add func side) vm.2
  -- Create signatures based on stored bigrams (default min_num_stems).
  let m := m.build_signatures vm.1 side MIN_NUM_STEMS
  pure (m.mark_analysis_run side func)

/-- Per-protostem step of `find_good_signatures_inside_bad`: find the
largest robustness-sorted signature whose affixes the protostem's
continuations contain, claim the corresponding bigrams and remove the
claimed affixes from the continuation pool. -/
def fgsib_step (signatures : List Sig) (side : Side)
    (acc : List (Str × Str) × Morphology) (protostem : Str) :
    List (Str × Str) × Morphology :=
  let (bigrams, m) := acc
  let continuations := (alookup protostem (m.get_protostems side)).getD []
  let best_sig_affixes :=
    signatures.foldl
      (fun best sig =>
        let affixes := keysOf sig.affixes
        if listSubset affixes continuations ∧ listSubset best affixes
        then affixes else best)
      []
  let bigrams := best_sig_affixes.foldl
    (fun bgs affix =>
      setAdd (match side with
              | Side.prefixal => (affix, protostem)
              | Side.suffixal => (protostem, affix)) bgs)
    bigrams
  let m := m.set_protostems side
    (upsert protostem
      (best_sig_affixes.foldl (fun c affix => setDiscard affix c)
        continuations)
      (m.get_protostems side))
  (bigrams, m)

/-- `Morphology.find_good_signatures_inside_bad`; `none` models a
`KeyError` on a lexicon access. -/
def find_good_signatures_inside_bad (m : Morphology) (side : Side) :
    Option Morphology := do
  let func := lit "find_good_signatures_inside_bad"
  let bigrams := m.get_bigrams side
  -- Signatures sorted by decreasing robustness.
  let signatures :=
    sortBy (fun s t : Sig => decide (t.robustness ≤ s.robustness))
      (m.get_signatures side)
  -- For each protostem, find the best contained signature and claim it.
  let bm := (keysOf (m.get_protostems side)).foldl
    (fgsib_step signatures side) (bigrams, m)
  -- Update biography of analyzed words and mark analysis as run.
  let m ← bm.1.foldlM (bigram_bio_add func side) bm.2
  let m := m.mark_analysis_run side func
  pure (m.build_signatures bm.1 side MIN_NUM_STEMS)

end Morphology

end Pycrab

namespace Pycrab

/-- Orient a (stem, affix) pair for the given side
(`switch_if_needed` in `split_affixes`). -/
def switch_if_needed (t : Str × Str) (side : Side) : Str × Str :=
  match side with
  | Side.prefixal => (t.2, t.1)
  | Side.suffixal => t

/-- Orient a (stem, mid, affix) triple for the given side. -/
def switch3_if_needed (t : Str × Str × Str) (side : Side) : List Str :=
  match side with
  | Side.prefixal => [t.2.2, t.2.1, t.1]
  | Side.suffixal => [t.1, t.2.1, t.2.2]

namespace Morphology

/-- Step 1 of `split_affixes`: all analyses (stem, signature affix string)
associated with each word, one entry per bigram of each signature. -/
def word_to_analyses (m : Morphology) (side : Side) :
    List (Str × List (Str × Str)) :=
  (m.get_signatures side).foldl
    (fun acc sig =>
      sig.bigrams.foldl
        (fun acc bg =>
          let stem := match side with
            | Side.prefixal => bg.2
            | Side.suffixal => bg.1
          upsert (bg.1 ++ bg.2)
            (setAdd (stem, sig.affix_string)
              ((alookup (bg.1 ++ bg.2) acc).getD []))
            acc)
        acc)
    []

/-- Step 2 of `split_affixes`: group the short stems of words with several
analyses by (string difference, short signature, long signature), admitting
a pair of analyses only when the long-stem signature passes the edge-entropy
threshold; `none` models a `ValueError` from `get_signature` or
`get_edge_entropy`. -/
def biparse_to_stems (m : Morphology) (side : Side) :
    Option (List ((Str × Str × Str) × List Str)) :=
  (m.word_to_analyses side).foldlM
    (fun acc wa => do
      if wa.2.length ≤ 1 then
        pure acc
      else
        let sortedAnalyses :=
          sortBy (fun a b : Str × Str => decide (a.1.length ≤ b.1.length)) wa.2
        (combos2 sortedAnalyses).foldlM
          (fun acc pair => do
            let (short_stem, short_sig_string) := pair.1
            let (long_stem, long_sig_string) := pair.2
            let long_sig ← (m.get_signature long_sig_string side).toOption
            let gate ← long_sig.edge_entropy_gate
            if gate then
              let diff := match side with
                | Side.suffixal => long_stem.drop short_stem.length
                | Side.prefixal => pySliceDropLastN short_stem.length long_stem
              let key := (diff, short_sig_string, long_sig_string)
              pure (upsert key (setAdd short_stem ((alookup key acc).getD [])) acc)
            else
              pure acc)
          acc)
    []

/-- Inner body of the first rewiring loop of `split_affixes`: for one
short stem and one affix of the short-stem signature, when the affix
starts with the string difference, drop the superseded (stem, affix)
bigram and its two-morpheme parse.  `none` models a `KeyError` on a
missing lexicon word. -/
def split_rewire1_affix (func : Str) (side : Side) (diff stem : Str)
    (acc : List (Str × Str) × Morphology) (affix : Str) :
    Option (List (Str × Str) × Morphology) := do
  let (bigrams, m) := acc
  if diff.isPrefixOf affix then
    let old_bigram := switch_if_needed (stem, affix) side
    let word := old_bigram.1 ++ old_bigram.2
    let bigrams := setDiscard old_bigram bigrams
    let m ← m.lex_discard_from_biography word func
      (Parse.mk [old_bigram.1, old_bigram.2]) side
    pure (bigrams, m)
  else
    pure (bigrams, m)

/-- First rewiring loop of `split_affixes`, one short stem: add the (stem,
indexed diff) bigram, then process each affix of the short-stem
signature. -/
def split_rewire1_stem (func : Str) (side : Side) (diff indexed_diff : Str)
    (short_sig : Sig) (acc : List (Str × Str) × Morphology) (stem : Str) :
    Option (List (Str × Str) × Morphology) := do
  let (bigrams, m) := acc
  let bigrams := setAdd (switch_if_needed (stem, indexed_diff) side) bigrams
  (keysOf short_sig.affixes).foldlM
    (split_rewire1_affix func side diff stem) (bigrams, m)

/-- Inner body of the second rewiring loop of `split_affixes`: for one
residue affix of the long-stem signature and one short stem, drop the
superseded (stem+diff, affix) bigram and parse and add the new
three-morpheme parse. -/
def split_rewire2_stem (func : Str) (side : Side) (diff indexed_diff affix : Str)
    (acc : List (Str × Str) × Morphology) (stem : Str) :
    Option (List (Str × Str) × Morphology) := do
  let (bigrams, m) := acc
  let new_stem := match side with
    | Side.suffixal => stem ++ diff
    | Side.prefixal => diff ++ stem
  let old_bigram := switch_if_needed (new_stem, affix) side
  let bigrams := setDiscard old_bigram bigrams
  let word := old_bigram.1 ++ old_bigram.2
  let m ← m.lex_discard_from_biography word func
    (Parse.mk [old_bigram.1, old_bigram.2]) side
  let new_parse := Parse.mk (switch3_if_needed (stem, indexed_diff, affix) side)
  let m ← m.lex_add_to_biography word func new_parse side
  pure (bigrams, m)

/-- Second rewiring loop of `split_affixes`, one residue affix: add the
(indexed diff, affix) bigram, then process each short stem. -/
def split_rewire2_affix (func : Str) (side : Side) (diff indexed_diff : Str)
    (short_stems : List Str) (acc : List (Str × Str) × Morphology)
    (affix : Str) : Option (List (Str × Str) × Morphology) := do
  let (bigrams, m) := acc
  let bigrams := setAdd (switch_if_needed (indexed_diff, affix) side) bigrams
  short_stems.foldlM (split_rewire2_stem func side diff indexed_diff affix)
    (bigrams, m)

/-- Rewiring performed by `split_affixes` for one biparse group: add the
(stem, indexed diff) and (indexed diff, residue) bigrams, remove the
superseded bigrams, and replace the two-morpheme parses of the covered
words by the three-morpheme ones.  `none` models a `KeyError` on a missing
lexicon word. -/
def process_biparse (func : Str) (side : Side)
    (acc : List (Str × Str) × Morphology)
    (group : (Str × Str × Str) × List Str) :
    Option (List (Str × Str) × Morphology) := do
  let (bigrams, m) := acc
  let (diff, short_sig_string, long_sig_string) := group.1
  let short_stems := group.2
  let (indexed_diff, m) := m.add_new_index diff side
  let short_sig ← (m.get_signature short_sig_string side).toOption
  let long_sig ← (m.get_signature long_sig_string side).toOption
  -- First rewiring loop: stem-side bigrams and parse removals.
  let bm ← short_stems.foldlM
    (split_rewire1_stem func side diff indexed_diff short_sig) (bigrams, m)
  -- Second rewiring loop: affix-side bigrams, parse removals and the new
  -- three-morpheme parses.
  (keysOf long_sig.affixes).foldlM
    (split_rewire2_affix func side diff indexed_diff short_stems) bm

/-- The parse-copying step of `split_affixes`: append every current parse
of a word to this pass's biography entry. -/
def copy_parses_step (func : Str) (side : Side) (m : Morphology)
    (kw : Str × Word) : Option Morphology :=
  (kw.2.get_parses side).foldlM
    (fun (m : Morphology) parse => m.lex_add_to_biography kw.1 func parse side)
    m

/-- `Morphology.split_affixes`: biparse detection and affix splitting;
`none` models an uncaught `KeyError`/`ValueError`. -/
def split_affixes (m : Morphology) (side : Side) : Option Morphology := do
  let func := lit "split_affixes"
  let groups ← m.biparse_to_stems side
  let bigrams := m.get_bigrams side
  -- Copy current word parses into this pass's biography entries.
  let m ← m.lexicon.foldlM (copy_parses_step func side) m
  -- Rewire bigrams and parses for each stored biparse.
  let (bigrams, m) ← groups.foldlM (process_biparse func side) (bigrams, m)
  -- Create signatures based on stored bigrams, allowing single-stem ones.
  let m := m.build_signatures bigrams side 1
  pure (m.mark_analysis_run side func)

/-- Assign a signature's affix string to the first family whose nucleus it
contains (the `break` in `create_families`). -/
def assign_to_first_family (sig : Sig) : List Family → List Family
  | [] => []
  | f :: fs =>
      if sig.contains f.nucleus then
        { f with children := setAdd sig.affix_string f.children } :: fs
      else
        f :: assign_to_first_family sig fs

/-- `Morphology.create_families`.  Note: the number of seed families is
`min(NUM_SEED_FAMILIES, len(signatures))` — the module-level constant —
regardless of the `num_seed_families` argument, which the body never
reads. -/
def create_families (m : Morphology) (_num_seed_families : Nat)
    (min_robustness : Int) (side : Side) : Morphology :=
  let signatures :=
    sortBy (fun s t : Sig => decide (t.robustness ≤ s.robustness))
      (m.get_signatures side)
  let actual_num_seed_families := min NUM_SEED_FAMILIES signatures.length
  let families :=
    (signatures.take actual_num_seed_families).map
      (fun nucleus => Family.mk nucleus.affix_string [] side)
  let families :=
    sortBy
      (fun f g : Family =>
        decide ((g.nucleus.splitOn AFFIX_DELIMITER).length
          ≤ (f.nucleus.splitOn AFFIX_DELIMITER).length))
      families
  let families :=
    (signatures.drop actual_num_seed_families).foldl
      (fun families sig =>
        if sig.robustness < min_robustness then families
        else assign_to_first_family sig families)
      families
  match side with
  | Side.prefixal => { m with prefixal_families := families }
  | Side.suffixal => { m with suffixal_families := families }

/-- `Morphology.learn_from_wordlist`: reset, lowercase and count the words,
populate the lexicon, then run `find_signatures1` for the suffixal and the
prefixal side, and `find_good_signatures_inside_bad`, `split_affixes` and
`create_families` for the requested side only (the call to
`widen_signatures` is commented out in the source). -/
def learn_from_wordlist (m : Morphology) (wordlist : List Str)
    (lowercase_input : Bool) (min_stem_len min_num_stems : Nat)
    (num_seed_families : Nat) (min_robustness : Int) (side : Side) :
    Option Morphology := do
  let m := m.reset
  let wordlist :=
    if lowercase_input then wordlist.map (·.map Char.toLower) else wordlist
  let word_counts := wordlist.foldl (fun acc w => counterAdd w 1 acc) []
  let m := { m with lexicon :=
               word_counts.map (fun wc : Str × Nat => (wc.1, Word.init wc.1 wc.2)) }
  let m ← m.find_signatures1 min_stem_len min_num_stems Side.suffixal
  let m ← m.find_signatures1 min_stem_len min_num_stems Side.prefixal
  let m ← m.find_good_signatures_inside_bad side
  let m ← m.split_affixes side
  pure (m.create_families num_seed_families min_robustness side)

end Morphology

end Pycrab

namespace Pycrab

/-- `Signature._compute_cast_shadow_signatures`: for every position and
every common beginning of the stripped affixes, when the next letters of
the affixes sharing that beginning (plus "NULL" when the bare beginning is
itself an affix) are pairwise distinct and more than one, record the
sorted, delimiter-joined next letters as a cast shadow signature.
(On an empty affix dict Python's `max()` raises; that degenerate case does
not arise, the model returns the empty set there.) -/
def Sig.cast_shadow_signatures (sig : Sig) : List Str :=
  let stripped := keysOf sig.stripped_affixes
  let maxLen := (stripped.map List.length).foldl max 0
  (List.range maxLen).foldl
    (fun acc pos =>
      let affix_beginnings :=
        stripped.foldl
          (fun b affix =>
            if pos < affix.length then setAdd (affix.take pos) b else b)
          []
      affix_beginnings.foldl
        (fun acc affix_beginning =>
          let considered_affixes :=
            stripped.filter
              (fun affix => affix_beginning.isPrefixOf affix ∧ pos < affix.length)
          let letter_types_at_pos :=
            considered_affixes.foldl
              (fun l affix => setAdd ((affix.drop pos).take 1) l) []
          let considered_affixes :=
            if affix_beginning ∈ stripped
            then considered_affixes ++ [NULL_AFFIX] else considered_affixes
          let letter_types_at_pos :=
            if affix_beginning ∈ stripped
            then setAdd (display NULL_AFFIX) letter_types_at_pos
            else letter_types_at_pos
          if letter_types_at_pos.length = considered_affixes.length
              ∧ 1 < considered_affixes.length then
            setAdd (sjoin [AFFIX_DELIMITER] (sortBy strLe letter_types_at_pos))
              acc
          else acc)
        acc)
    []

/-- `Morphology.get_shadow_signatures`: union of the cast shadow signatures
of all signatures of the requested side. -/
def Morphology.get_shadow_signatures (m : Morphology) (side : Side) :
    List Str :=
  (m.get_signatures side).foldl
    (fun acc sig => setUnion acc sig.cast_shadow_signatures) []

/-- Python `dict.__eq__` on count dicts: order-insensitive key/value
equality (the key sets coincide and agree on values; keys are unique in a
Python dict). -/
def natd_beq (d e : List (Str × Nat)) : Bool :=
  d.length = e.length && d.all (fun kv => alookup kv.1 e = some kv.2)

/-- `Signature.__eq__` (tuple equality): the stem, stripped-stem, affix and
stripped-affix dicts and the affix side all coincide. -/
def sig_beq (s t : Sig) : Bool :=
  natd_beq s.stems t.stems && natd_beq s.stripped_stems t.stripped_stems
    && natd_beq s.affixes t.affixes
    && natd_beq s.stripped_affixes t.stripped_affixes
    && (s.affix_side = t.affix_side)

/-- Python `dict.__eq__` on signature dicts. -/
def sigdict_beq (d e : List (Str × Sig)) : Bool :=
  d.length = e.length
    && d.all (fun kv =>
         match alookup kv.1 e with
         | some s => sig_beq kv.2 s
         | none => false)

/-- `Morphology.__eq__`: two morphologies are equal exactly when their
suffixal and prefixal signature dicts are; no other attribute is read. -/
def Morphology.morph_eq (m other : Morphology) : Bool :=
  sigdict_beq other.suffixal_signatures m.suffixal_signatures
    && sigdict_beq other.prefixal_signatures m.prefixal_signatures

/-- Final `num_letters`-letter sequence of a stem as the specification
words it (the last `min(num_letters, length)` letters; in particular the
empty sequence when `num_letters = 0`), written without Python's `s[-0:]`
slicing quirk.  Used to compare `get_edge_entropy` against its
specification. -/
def specSliceLastN (n : Nat) (s : Str) : Str := s.drop (s.length - n)

/-- The counts of final `num_letters`-letter stem sequences as the
specification describes them. -/
def Sig.edge_entropy_counts_spec (sig : Sig) (num_letters : Nat) :
    List (Str × Nat) :=
  (keysOf sig.stripped_stems).foldl
    (fun acc stem => counterAdd (specSliceLastN num_letters stem) 1 acc) []

end Pycrab

namespace Pycrab

/-- The opposite affix side. -/
def Side.other : Side → Side
  | Side.suffixal => Side.prefixal
  | Side.prefixal => Side.suffixal

/-- The robustness formula as the specification words it: (total letters
over the distinct stems) × (number of affixes − 1) + (total letters over
the distinct affixes, the NULL affix contributing 0) × (number of
stems − 1), over the dicts as given (no index stripping). -/
def letters_saved (stems affixes : List (Str × Nat)) : Int :=
  (((keysOf stems).map List.length).sum : Int)
      * (((keysOf affixes).length : Int) - 1)
    + (((keysOf affixes).map List.length).sum : Int)
      * (((keysOf stems).length : Int) - 1)

/-- `letters_saved` applied to a signature's own (unstripped) stem and
affix dicts: the robustness value the specification claims. -/
def Sig.robustness_spec (sig : Sig) : Int :=
  letters_saved sig.stems sig.affixes

/-- Exact concatenation of a parse's morphemes (the NULL affix, being the
empty string, contributes nothing). -/
def Parse.surface (p : Parse) : Str := sjoin [] p.morphemes

/-- Remove the disambiguation index that `add_new_index` attaches to an
affix: the part before the marker for a suffixal index (`ing:1` ↦ `ing`),
the part after the marker for a prefixal index (`1:ing` ↦ `ing`); a
marker-free morpheme is returned unchanged. -/
def remove_disambiguation_index (side : Side) (m : Str) : Str :=
  match side with
  | Side.suffixal => m.takeWhile (· ≠ AFFIX_MARKER)
  | Side.prefixal =>
      if AFFIX_MARKER ∈ m then (m.dropWhile (· ≠ AFFIX_MARKER)).drop 1 else m

/-- A parse spells a word: concatenating its morphemes after removing
their disambiguation indices yields exactly the word's surface form. -/
def parse_respells (side : Side) (word : Str) (p : Parse) : Prop :=
  sjoin [] (p.morphemes.map (remove_disambiguation_index side)) = word

instance (side : Side) (word : Str) (p : Parse) :
    Decidable (parse_respells side word p) := by
  unfold parse_respells; infer_instance

/-- The requested side's biography dict of a word. -/
def Word.biography (w : Word) (side : Side) : List (Str × List Parse) :=
  match side with
  | Side.prefixal => w.prefixal_biography
  | Side.suffixal => w.suffixal_biography

/-- The requested side's current parse set of a word (the raw attribute,
without `get_parses`'s default). -/
def Word.parses (w : Word) (side : Side) : List Parse :=
  match side with
  | Side.prefixal => w.prefixal_parses
  | Side.suffixal => w.suffixal_parses

/-- Well-formedness of one lexicon entry: the stored form is the key, the
key carries no disambiguation marker, and every parse in every biography
entry and in the current parse set respells the key. -/
def word_wf (side : Side) (k : Str) (w : Word) : Prop :=
  w.form = k ∧ noMarker k
    ∧ (∀ fe ∈ w.biography side, ∀ p ∈ fe.2, parse_respells side k p)
    ∧ (∀ p ∈ w.parses side, parse_respells side k p)

instance (side : Side) (k : Str) (w : Word) : Decidable (word_wf side k w) := by
  unfold word_wf; infer_instance

/-- Well-formedness of the whole lexicon. -/
def lexicon_wf (m : Morphology) (side : Side) : Prop :=
  ∀ kw ∈ m.lexicon, word_wf side kw.1 kw.2

instance (m : Morphology) (side : Side) : Decidable (lexicon_wf m side) := by
  unfold lexicon_wf; infer_instance

/-- All stems and affixes of the requested side's signatures are free of
the disambiguation marker (true before the first `split_affixes` run,
whose fresh indexed morphemes are what introduce the marker). -/
def sig_morphemes_clean (m : Morphology) (side : Side) : Prop :=
  ∀ sig ∈ m.get_signatures side,
    (∀ s ∈ keysOf sig.stems, noMarker s) ∧ (∀ a ∈ keysOf sig.affixes, noMarker a)

instance (m : Morphology) (side : Side) :
    Decidable (sig_morphemes_clean m side) := by
  unfold sig_morphemes_clean; infer_instance

/-- The morphology with no content (`Morphology()` after `reset`). -/
def Morphology.empty : Morphology :=
  ⟨[], [], [], [], [], [], [], [], [], [], []⟩

/-- Key/value well-formedness of a signature dict, as Python's `dict`
invariants guarantee it: unique signature keys and unique stem/affix keys
inside each signature. -/
def sigdict_wf (d : List (Str × Sig)) : Prop :=
  (keysOf d).Nodup
    ∧ ∀ kv ∈ d, (keysOf kv.2.stems).Nodup ∧ (keysOf kv.2.affixes).Nodup

instance (d : List (Str × Sig)) : Decidable (sigdict_wf d) := by
  unfold sigdict_wf; infer_instance

/-- The signature `(stems={"want": 1, "add": 2},
affixes={NULL: 1, "ed": 1, "ing": 1})` from the specification's robustness
example. -/
def exampleSig : Sig :=
  ⟨[(lit "want", 1), (lit "add", 2)],
   [(NULL_AFFIX, 1), (lit "ed", 1), (lit "ing", 1)], Side.suffixal⟩

/-- A signature carrying a disambiguation-indexed affix `ing:1`, as
`split_affixes` produces them. -/
def indexedSig : Sig :=
  ⟨[(lit "want", 1), (lit "add", 2)],
   [(NULL_AFFIX, 1), (lit "ing:1", 1)], Side.suffixal⟩

/-- The signature with affixes e/ed/es/ing and single stem "chang" from
the specification's shadow-detection scenario. -/
def shadowSig : Sig :=
  ⟨[(lit "chang", 1)],
   [(lit "e", 1), (lit "ed", 1), (lit "es", 1), (lit "ing", 1)],
   Side.suffixal⟩

/-- A morphology holding only `shadowSig`. -/
def shadowMorphology : Morphology :=
  { Morphology.empty with
      suffixal_signatures := [(shadowSig.affix_string, shadowSig)] }

/-- A short-stem signature `ing=ings` with stem "bowl". -/
def shortSig : Sig :=
  ⟨[(lit "bowl", 1)], [(lit "ing", 1), (lit "ings", 1)], Side.suffixal⟩

/-- A long-stem signature `NULL=s` with stems "bowling", "walkex",
"jumpy"; its three distinct final stem letters push the edge entropy to
log2(3) ≈ 1.585, above the biparse threshold. -/
def longSig : Sig :=
  ⟨[(lit "bowling", 1), (lit "walkex", 1), (lit "jumpy", 1)],
   [(NULL_AFFIX, 1), (lit "s", 1)], Side.suffixal⟩

/-- A lexicon covering every bigram of `shortSig` and `longSig`. -/
def biparseLexicon : List (Str × Word) :=
  [lit "bowling", lit "bowlings", lit "walkex", lit "walkexs",
   lit "jumpy", lit "jumpys"].map (fun w => (w, Word.init w 1))

/-- A morphology on which `split_affixes` performs one affix split:
"bowling"/"bowlings" are each analyzable by both signatures, yielding the
biparse (diff "ing", short `ing=ings`, long `NULL=s`). -/
def biparseMorphology : Morphology :=
  { Morphology.empty with
      lexicon := biparseLexicon,
      suffixal_signatures :=
        [(shortSig.affix_string, shortSig), (longSig.affix_string, longSig)] }

/-- A signature whose stems are "ab" and "cd" (used for the edge-entropy
boundary case `num_letters = 0`). -/
def abcdSig : Sig :=
  ⟨[(lit "ab", 1), (lit "cd", 1)], [(NULL_AFFIX, 1), (lit "s", 1)],
   Side.suffixal⟩

/-- A signature with a single one-letter stem (used to exercise the
edge-entropy validation failure). -/
def shortStemSig : Sig :=
  ⟨[(lit "a", 1)], [(NULL_AFFIX, 1), (lit "s", 1)], Side.suffixal⟩

/-- A signature with no stems at all (used to exercise the math-domain
`ValueError` that `utils.entropy` raises on the empty counter
`get_edge_entropy` hands it). -/
def noStemSig : Sig :=
  ⟨[], [(NULL_AFFIX, 1), (lit "s", 1)], Side.suffixal⟩

/-- A morphology with two signatures (used for the seed-family count). -/
def twoSigMorphology : Morphology :=
  { Morphology.empty with
      suffixal_signatures :=
        [(exampleSig.affix_string, exampleSig),
         (shadowSig.affix_string, shadowSig)] }

end Pycrab

namespace Pycrab

/-- C10: a `Word` whose parses of the requested side were never set answers
`get_parses` with exactly the singleton set holding the one-morpheme parse
made of the word's own surface form (in particular, never the empty set). -/
theorem claim_C10_default_parse_is_surface_form :
    ∀ (form : Str) (count : Nat) (side : Side),
      (Word.init form count).get_parses side = [Parse.mk [form]] := by
  intro form count side
  cases side <;> rfl

/-- C3: `create_families` ignores its `num_seed_families` argument and uses
the module constant `NUM_SEED_FAMILIES` instead; with two signatures and
`num_seed_families = 1` it creates `min(30, 2) = 2` families, not
`min(1, 2) = 1` as the claim (and the argument's own documentation)
states. -/
theorem claim_C3_seed_family_count_ignores_argument :
    ((twoSigMorphology.create_families 1 100 Side.suffixal).suffixal_families).length = 2
    ∧ min 1 ((twoSigMorphology.get_signatures Side.suffixal).length) = 1 := by
  decide

/-- C8: the suffixal signature with affixes {"e","ed","es","ing"} and stem
"chang" casts exactly the shadow signature "NULL=d=s" (from the e/ed/es
cluster), and the morphology-level collection reports it; shadow
computation is a pure function of the signatures (it returns a value and
touches no state in this embedding, mirroring the read-only Python
code path). -/
theorem claim_C8_shadow_signature_scenario :
    shadowSig.cast_shadow_signatures = [lit "NULL=d=s"]
    ∧ lit "NULL=d=s" ∈ shadowMorphology.get_shadow_signatures Side.suffixal := by
  decide

/-- C4 counterexample: the `ValueError` message of `get_signature` does not
contain the requested affix string — requesting "zzz" on an empty
morphology produces the fixed message, which names the side but not
"zzz". -/
theorem claim_C4_counterexample :
    Morphology.empty.get_signature (lit "zzz") Side.suffixal
      = Except.error (Morphology.no_signature_message Side.suffixal)
    ∧ ¬ (lit "zzz" <:+: Morphology.no_signature_message Side.suffixal) :=
  ⟨rfl, by decide⟩

/-- C4 (amended): for an affix string absent from the requested side's
signature dict, `get_signature` raises a distinct not-found `ValueError`
whose message names the requested side (but not the affix string), and it
never returns a default; for a present key it returns the stored
signature. -/
theorem claim_C4_get_signature_lookup (m : Morphology) (affix : Str)
    (side : Side) :
    (alookup affix (m.sig_dict side) = none →
       m.get_signature affix side
         = Except.error (Morphology.no_signature_message side)
       ∧ Morphology.sideName side <:+: Morphology.no_signature_message side)
    ∧ (∀ sig, alookup affix (m.sig_dict side) = some sig →
       m.get_signature affix side = Except.ok sig) := by
  constructor
  · intro h
    refine ⟨?_, ?_⟩
    · unfold Morphology.get_signature
      rw [h]
    · cases side <;> decide
  · intro sig h
    unfold Morphology.get_signature
    rw [h]

/-- C4 witness: concrete failing and succeeding lookups. -/
theorem claim_C4_witness :
    (Morphology.empty.get_signature (lit "zzz") Side.suffixal
       = Except.error (Morphology.no_signature_message Side.suffixal)
     ∧ Morphology.sideName Side.suffixal
         <:+: Morphology.no_signature_message Side.suffixal)
    ∧ twoSigMorphology.get_signature (lit "NULL=ed=ing") Side.suffixal
        = Except.ok exampleSig := by
  exact ⟨(claim_C4_get_signature_lookup Morphology.empty (lit "zzz")
            Side.suffixal).1 (by decide),
         (claim_C4_get_signature_lookup twoSigMorphology (lit "NULL=ed=ing")
            Side.suffixal).2 exampleSig (by decide)⟩

end Pycrab

namespace Pycrab

theorem mem_upsert [DecidableEq K] {kv : K × V} {k : K} {v : V} :
    ∀ {d : List (K × V)}, kv ∈ upsert k v d → kv = (k, v) ∨ kv ∈ d := by
  intro d
  induction d with
  | nil => intro h; simpa [upsert] using h
  | cons hd tl ih =>
      obtain ⟨k₀, v₀⟩ := hd
      intro h
      by_cases hk : k₀ = k
      · rw [upsert, if_pos hk] at h
        rcases List.mem_cons.1 h with h | h
        · exact Or.inl h
        · exact Or.inr (List.mem_cons_of_mem _ h)
      · rw [upsert, if_neg hk] at h
        rcases List.mem_cons.1 h with h | h
        · exact Or.inr (by simp [h])
        · rcases ih h with h | h
          · exact Or.inl h
          · exact Or.inr (List.mem_cons_of_mem _ h)

theorem keysOf_upsert_of_mem [DecidableEq K] {k : K} {v : V} :
    ∀ {d : List (K × V)}, k ∈ keysOf d → keysOf (upsert k v d) = keysOf d := by
  intro d
  induction d with
  | nil => intro h; simp [keysOf] at h
  | cons hd tl ih =>
      obtain ⟨k₀, v₀⟩ := hd
      intro h
      by_cases hk : k₀ = k
      · rw [upsert, if_pos hk]
        simp [keysOf, hk]
      · rw [upsert, if_neg hk]
        simp only [keysOf, List.map_cons, List.mem_cons] at h
        rcases h with h | h
        · exact absurd h.symm hk
        · have := ih h
          simp only [keysOf, List.map_cons] at this ⊢
          rw [this]

theorem keysOf_upsert_of_not_mem [DecidableEq K] {k : K} {v : V} :
    ∀ {d : List (K × V)}, k ∉ keysOf d →
      upsert k v d = d ++ [(k, v)] := by
  intro d
  induction d with
  | nil => intro _; rfl
  | cons hd tl ih =>
      obtain ⟨k₀, v₀⟩ := hd
      intro h
      simp only [keysOf, List.map_cons, List.mem_cons] at h
      push_neg at h
      have hne : k₀ ≠ k := fun hh => h.1 hh.symm
      rw [upsert, if_neg hne, ih h.2]
      rfl

theorem mem_keysOf_upsert [DecidableEq K] {a k : K} {v : V}
    {d : List (K × V)} : a ∈ keysOf (upsert k v d) ↔ a = k ∨ a ∈ keysOf d := by
  by_cases hk : k ∈ keysOf d
  · rw [keysOf_upsert_of_mem hk]
    constructor
    · exact Or.inr
    · rintro (rfl | h)
      · exact hk
      · exact h
  · rw [keysOf_upsert_of_not_mem hk]
    simp [keysOf, or_comm]

theorem keysOf_upsert_nodup [DecidableEq K] {k : K} {v : V}
    {d : List (K × V)} (h : (keysOf d).Nodup) :
    (keysOf (upsert k v d)).Nodup := by
  by_cases hk : k ∈ keysOf d
  · rwa [keysOf_upsert_of_mem hk]
  · rw [keysOf_upsert_of_not_mem hk]
    simpa [keysOf, List.nodup_append] using And.intro h hk

theorem alookup_of_mem_nodup [DecidableEq K] {k : K} {v : V} :
    ∀ {d : List (K × V)}, (keysOf d).Nodup → (k, v) ∈ d →
      alookup k d = some v := by
  intro d
  induction d with
  | nil => intro _ h; simp at h
  | cons hd tl ih =>
      intro hnd hmem
      simp only [keysOf, List.map_cons, List.nodup_cons] at hnd
      rcases List.mem_cons.1 hmem with h | h
      · simp [alookup, ← h]
      · have hk : hd.1 ≠ k := by
          intro hh
          exact hnd.1 (hh ▸ (List.mem_map.2 ⟨(k, v), h, rfl⟩))
        simp [alookup, hk, ih hnd.2 h]

theorem alookup_mem [DecidableEq K] {k : K} {v : V} :
    ∀ {d : List (K × V)}, alookup k d = some v → (k, v) ∈ d := by
  intro d
  induction d with
  | nil => intro h; simp [alookup] at h
  | cons hd tl ih =>
      intro h
      by_cases hk : hd.1 = k
      · simp only [alookup, hk, if_pos, Option.some.injEq] at h
        exact List.mem_cons.2 (Or.inl (by rw [← h, ← hk]))
      · simp only [alookup, hk, if_neg, not_false_iff] at h
        exact List.mem_cons_of_mem _ (ih h)

theorem dictZip_keys_nodup : ∀ {ks : List Str} {vs : List Nat},
    (keysOf (dictZip ks vs)).Nodup := by
  have main : ∀ (pairs : List (Str × Nat)) (acc : List (Str × Nat)),
      (keysOf acc).Nodup →
      (keysOf (pairs.foldl (fun acc kv => upsert kv.1 kv.2 acc) acc)).Nodup := by
    intro pairs
    induction pairs with
    | nil => intro acc h; exact h
    | cons hd tl ih => intro acc h; exact ih _ (keysOf_upsert_nodup h)
  intro ks vs
  exact main _ [] (by simp [keysOf])

theorem natd_beq_refl {d : List (Str × Nat)} (h : (keysOf d).Nodup) :
    natd_beq d d = true := by
  unfold natd_beq
  rw [Bool.and_eq_true]
  constructor
  · simp
  · rw [List.all_eq_true]
    intro kv hkv
    simp [alookup_of_mem_nodup h hkv]

theorem sig_beq_refl {s : Sig} (hs : (keysOf s.stems).Nodup)
    (ha : (keysOf s.affixes).Nodup) : sig_beq s s = true := by
  unfold sig_beq
  simp only [Bool.and_eq_true]
  refine ⟨⟨⟨⟨natd_beq_refl hs, natd_beq_refl ?_⟩, natd_beq_refl ha⟩,
          natd_beq_refl ?_⟩, by simp⟩
  · exact dictZip_keys_nodup
  · exact dictZip_keys_nodup

theorem sigdict_beq_refl {d : List (Str × Sig)} (h : sigdict_wf d) :
    sigdict_beq d d = true := by
  unfold sigdict_beq
  rw [Bool.and_eq_true]
  constructor
  · simp
  · rw [List.all_eq_true]
    intro kv hkv
    rw [alookup_of_mem_nodup h.1 hkv]
    exact sig_beq_refl (h.2 kv hkv).1 (h.2 kv hkv).2

/-- C9: `Morphology.__eq__` reads only the two signature dicts — any two
morphologies with equal suffixal and prefixal signature dicts compare
equal, whatever their lexicons, families, protostems, collision counters
or analysis lists are (the dict-invariant hypotheses record that Python
dict keys are unique). -/
theorem claim_C9_equality_reads_only_signatures
    (m₁ m₂ : Morphology)
    (hsuf : m₁.suffixal_signatures = m₂.suffixal_signatures)
    (hpre : m₁.prefixal_signatures = m₂.prefixal_signatures)
    (hwf₁ : sigdict_wf m₁.suffixal_signatures)
    (hwf₂ : sigdict_wf m₁.prefixal_signatures) :
    m₁.morph_eq m₂ = true := by
  unfold Morphology.morph_eq
  rw [← hsuf, ← hpre]
  simp [sigdict_beq_refl hwf₁, sigdict_beq_refl hwf₂]

/-- C9 witness: two morphologies sharing the signature dicts but differing
in lexicon, families, protostems, collision counters and analysis lists
compare equal. -/
theorem claim_C9_witness :
    Morphology.morph_eq
      { Morphology.empty with
          suffixal_signatures := [(exampleSig.affix_string, exampleSig)],
          lexicon := biparseLexicon,
          suffixal_families := [Family.mk (lit "x") [] Side.suffixal],
          suffixal_protostems := [(lit "want", [lit "s"])],
          suffixal_name_collisions := [(lit "ing", 3)],
          suffixal_analyses_run := [lit "find_signatures1"] }
      { Morphology.empty with
          suffixal_signatures := [(exampleSig.affix_string, exampleSig)] }
      = true := by
  exact claim_C9_equality_reads_only_signatures _ _ rfl rfl (by decide)
    (by decide)

end Pycrab

namespace Pycrab

theorem sjoin_nil_cons (a : Str) (l : List Str) :
    sjoin [] (a :: l) = a ++ sjoin [] l := by
  cases l with
  | nil => simp [sjoin, List.intercalate, List.intersperse]
  | cons b t => simp [sjoin, List.intercalate, List.intersperse]

theorem sjoin_nil_length (l : List Str) :
    (sjoin [] l).length = (l.map List.length).sum := by
  induction l with
  | nil => simp [sjoin, List.intercalate, List.intersperse]
  | cons a t ih => simp [sjoin_nil_cons, ih]

theorem strip_index_of_noMarker {s : Str} (h : noMarker s) :
    strip_index s = s := by
  induction s with
  | nil => rfl
  | cons c t ih =>
      unfold noMarker at h
      simp only [List.mem_cons] at h
      push_neg at h
      unfold strip_index at ih ⊢
      rw [List.takeWhile_cons, if_pos (by simpa using h.1.symm)]
      rw [ih (by unfold noMarker; exact h.2)]

theorem zip_keys_values (d : List (K × V)) :
    List.zip (d.map (·.1)) (d.map (·.2)) = d := by
  induction d with
  | nil => rfl
  | cons hd tl ih => simp [ih]

theorem foldl_upsert_of_fresh [DecidableEq K] :
    ∀ (pairs acc : List (K × V)),
      (∀ k ∈ keysOf pairs, k ∉ keysOf acc) → (keysOf pairs).Nodup →
      pairs.foldl (fun acc kv => upsert kv.1 kv.2 acc) acc = acc ++ pairs := by
  intro pairs
  induction pairs with
  | nil => intro acc _ _; simp
  | cons hd tl ih =>
      intro acc hfresh hnd
      simp only [keysOf, List.map_cons, List.nodup_cons] at hnd
      have h1 : hd.1 ∉ keysOf acc := hfresh hd.1 (by simp [keysOf])
      simp only [List.foldl_cons]
      rw [keysOf_upsert_of_not_mem h1]
      rw [ih (acc ++ [(hd.1, hd.2)]) ?fresh ?nd]
      · simp
      case fresh =>
        intro k hk
        simp only [keysOf, List.map_append, List.map_cons, List.map_nil,
          List.mem_append, List.mem_singleton]
        push_neg
        refine ⟨hfresh k (show k ∈ keysOf (hd :: tl) by
          simp only [keysOf, List.map_cons, List.mem_cons]
          exact Or.inr hk), ?_⟩
        intro hkk
        exact hnd.1 (hkk ▸ hk)
      case nd => exact hnd.2

theorem dictZip_eq_self {d : List (Str × Nat)} (h : (keysOf d).Nodup) :
    dictZip (keysOf d) (d.map (·.2)) = d := by
  unfold dictZip keysOf
  rw [zip_keys_values]
  rw [foldl_upsert_of_fresh d [] (by simp [keysOf]) h]
  simp

theorem stripped_stems_eq_self {sig : Sig}
    (hnd : (keysOf sig.stems).Nodup)
    (hnm : ∀ s ∈ keysOf sig.stems, noMarker s) :
    sig.stripped_stems = sig.stems := by
  unfold Sig.stripped_stems
  have hmap : (keysOf sig.stems).map strip_index = keysOf sig.stems := by
    rw [List.map_congr_left
      (fun s hs => (strip_index_of_noMarker (hnm s hs)).trans rfl)]
    exact List.map_id _
  rw [hmap]
  exact dictZip_eq_self hnd

theorem stripped_affixes_eq_self {sig : Sig}
    (hnd : (keysOf sig.affixes).Nodup)
    (hnm : ∀ a ∈ keysOf sig.affixes, noMarker a) :
    sig.stripped_affixes = sig.affixes := by
  unfold Sig.stripped_affixes
  have hmap : (keysOf sig.affixes).map strip_index = keysOf sig.affixes := by
    rw [List.map_congr_left
      (fun a ha => (strip_index_of_noMarker (hnm a ha)).trans rfl)]
    exact List.map_id _
  rw [hmap]
  exact dictZip_eq_self hnd

/-- C5 counterexample: the claimed formula counts the letters of the
morphemes as stored, but `_compute_robustness` works on the
index-stripped morphemes; with the indexed affix "ing:1" (3 letters once
stripped, 5 as stored) the two disagree. -/
theorem claim_C5_counterexample :
    indexedSig.robustness ≠ indexedSig.robustness_spec := by
  decide

/-- C5 (amended): robustness is the claimed formula evaluated on the
index-stripped stem and affix dicts; when no stem or affix carries a
disambiguation index (the NULL affix contributing 0 letters throughout),
this is exactly the claimed formula on the stored dicts. -/
theorem claim_C5_robustness_formula (sig : Sig) :
    sig.robustness = letters_saved sig.stripped_stems sig.stripped_affixes
    ∧ ((keysOf sig.stems).Nodup → (keysOf sig.affixes).Nodup →
       (∀ s ∈ keysOf sig.stems, noMarker s) →
       (∀ a ∈ keysOf sig.affixes, noMarker a) →
       sig.robustness = sig.robustness_spec) := by
  have h1 : sig.robustness
      = letters_saved sig.stripped_stems sig.stripped_affixes := by
    unfold Sig.robustness letters_saved
    rw [sjoin_nil_length, sjoin_nil_length]
  refine ⟨h1, fun hnds hnda hnms hnma => ?_⟩
  rw [h1]
  unfold Sig.robustness_spec
  rw [stripped_stems_eq_self hnds hnms, stripped_affixes_eq_self hnda hnma]

/-- C5 witness: the specification's example signature (stems
want:1/add:2, affixes NULL:1/ed:1/ing:1) satisfies the formula and has
robustness 19. -/
theorem claim_C5_witness :
    exampleSig.robustness = exampleSig.robustness_spec
    ∧ exampleSig.robustness = 19 := by
  refine ⟨(claim_C5_robustness_formula exampleSig).2 (by decide) (by decide)
    (by decide) (by decide), by decide⟩

end Pycrab

namespace Pycrab

theorem pySliceLastN_eq_spec {n : Nat} (h : n ≠ 0) (s : Str) :
    pySliceLastN n s = specSliceLastN n s := by
  unfold pySliceLastN specSliceLastN
  rw [if_neg h]

theorem edge_entropy_counts_eq_spec {sig : Sig} {n : Nat} (h : 1 ≤ n) :
    sig.edge_entropy_counts n = sig.edge_entropy_counts_spec n := by
  unfold Sig.edge_entropy_counts Sig.edge_entropy_counts_spec
  have hfun : (fun (acc : List (Str × Nat)) stem =>
      counterAdd (pySliceLastN n stem) 1 acc)
      = fun acc stem => counterAdd (specSliceLastN n stem) 1 acc := by
    funext acc stem
    rw [pySliceLastN_eq_spec (by omega) stem]
  rw [hfun]

theorem entropy_pair_of_ones (k₁ k₂ : Str) :
    entropyVal [(k₁, 1), (k₂, 1)] = 1 := by
  unfold entropyVal
  norm_num [Real.log_one]

theorem entropy_single_of_two (k : Str) : entropyVal [(k, 2)] = 0 := by
  unfold entropyVal
  norm_num

/-- C7 counterexample: at `num_letters = 0` no stem is too short, yet the
returned value is the entropy over the whole stems (Python's `stem[-0:]`
is the whole string), not the entropy over the empty final sequences the
claim describes — for stems {"ab","cd"} the code returns entropy 1 where
the claimed distribution has entropy 0. -/
theorem claim_C7_counterexample :
    abcdSig.get_edge_entropy 0
      ≠ Except.ok (entropyVal (abcdSig.edge_entropy_counts_spec 0)) := by
  have hcode : abcdSig.get_edge_entropy 0
      = Except.ok (entropyVal [(lit "ab", 1), (lit "cd", 1)]) := rfl
  have hspec : abcdSig.edge_entropy_counts_spec 0 = [([], 2)] := rfl
  rw [hcode, hspec]
  intro h
  have hval := Except.ok.inj h
  rw [entropy_pair_of_ones, entropy_single_of_two] at hval
  exact one_ne_zero hval

end Pycrab

namespace Pycrab

theorem foldl_preserve {α β : Type} {f : β → α → β} {P : β → Prop}
    (hf : ∀ b x, P b → P (f b x)) :
    ∀ {l : List α} {b : β}, P b → P (l.foldl f b) := by
  intro l
  induction l with
  | nil => intro b hb; exact hb
  | cons x xs ih => intro b hb; exact ih (hf b x hb)

theorem foldlM_preserve_rel {α β : Type} {f : β → α → Option β}
    {R : β → β → Prop} (hrefl : ∀ b, R b b)
    (htrans : ∀ a b c, R a b → R b c → R a c)
    (hf : ∀ b x b', f b x = some b' → R b b') :
    ∀ {l : List α} {b b' : β}, List.foldlM f b l = some b' → R b b' := by
  intro l
  induction l with
  | nil =>
      intro b b' h
      simp only [List.foldlM_nil, Option.pure_def, Option.some.injEq] at h
      exact h ▸ hrefl b
  | cons x xs ih =>
      intro b b' h
      simp only [List.foldlM_cons, Option.pure_def, Option.bind_eq_bind] at h
      rcases hx : f b x with _ | b₁
      · rw [hx] at h; simp at h
      · rw [hx] at h
        simp only [Option.some_bind] at h
        exact htrans _ _ _ (hf b x b₁ hx) (ih h)

theorem get_analyses_set_sig_dict (m : Morphology) (side s : Side)
    (d : List (Str × Sig)) :
    (m.set_sig_dict side d).get_analyses_list s = m.get_analyses_list s := by
  cases side <;> cases s <;> rfl

theorem get_analyses_set_protostems (m : Morphology) (side s : Side)
    (d : List (Str × List Str)) :
    (m.set_protostems side d).get_analyses_list s = m.get_analyses_list s := by
  cases side <;> cases s <;> rfl

theorem get_analyses_add_signature (m : Morphology)
    (st af : List (Str × Nat)) (side s : Side) :
    (m.add_signature st af side).get_analyses_list s
      = m.get_analyses_list s := by
  unfold Morphology.add_signature
  exact get_analyses_set_sig_dict _ _ _ _

theorem get_analyses_build_signatures (m : Morphology)
    (bigrams : List (Str × Str)) (side s : Side) (k : Nat) :
    (m.build_signatures bigrams side k).get_analyses_list s
      = m.get_analyses_list s := by
  unfold Morphology.build_signatures
  refine foldl_preserve (P := fun m₀ : Morphology =>
    m₀.get_analyses_list s = m.get_analyses_list s) ?_ ?_
  · intro b x hb
    by_cases h1 : k ≤ x.2.length
    · rw [if_pos h1]
      by_cases h2 : (m.set_sig_dict side []).morpheme_counts side ≠ []
      · rw [if_pos h2, get_analyses_add_signature]; exact hb
      · rw [if_neg h2, get_analyses_add_signature]; exact hb
    · rw [if_neg h1]; exact hb
  · exact get_analyses_set_sig_dict m side s []

theorem get_analyses_mark_same (m : Morphology) (side : Side) (func : Str) :
    (m.mark_analysis_run side func).get_analyses_list side
      = m.get_analyses_list side ++ [func] := by
  cases side <;> rfl

theorem get_analyses_mark_other (m : Morphology) (side : Side) (func : Str) :
    (m.mark_analysis_run side func).get_analyses_list side.other
      = m.get_analyses_list side.other := by
  cases side <;> rfl

theorem lex_add_analyses {m m' : Morphology} {w func : Str} {p : Parse}
    {side : Side} (h : m.lex_add_to_biography w func p side = some m') :
    ∀ s, m'.get_analyses_list s = m.get_analyses_list s := by
  unfold Morphology.lex_add_to_biography at h
  rcases hw : alookup w m.lexicon with _ | w₀
  · rw [hw] at h; simp at h
  · rw [hw] at h
    simp only [Option.pure_def, Option.bind_eq_bind, Option.some_bind,
      Option.some.injEq] at h
    intro s
    rw [← h]
    cases s <;> rfl

theorem lex_discard_analyses {m m' : Morphology} {w func : Str} {p : Parse}
    {side : Side} (h : m.lex_discard_from_biography w func p side = some m') :
    ∀ s, m'.get_analyses_list s = m.get_analyses_list s := by
  unfold Morphology.lex_discard_from_biography at h
  rcases hw : alookup w m.lexicon with _ | w₀
  · rw [hw] at h; simp at h
  · rw [hw] at h
    simp only [Option.pure_def, Option.bind_eq_bind, Option.some_bind,
      Option.some.injEq] at h
    intro s
    rw [← h]
    cases s <;> rfl

theorem add_new_index_analyses (m : Morphology) (affix : Str) (side : Side) :
    ∀ s, (m.add_new_index affix side).2.get_analyses_list s
        = m.get_analyses_list s := by
  intro s
  unfold Morphology.add_new_index
  by_cases h : affix = NULL_AFFIX ∨ AFFIX_MARKER ∈ affix
  · rw [if_pos h]
  · rw [if_neg h]
    cases side <;> cases s <;> rfl

end Pycrab

namespace Pycrab

theorem get_analyses_mark_ne {s side : Side} (hs : s ≠ side)
    (m : Morphology) (func : Str) :
    (m.mark_analysis_run side func).get_analyses_list s
      = m.get_analyses_list s := by
  cases side <;> cases s <;> first | rfl | exact absurd rfl hs

theorem fs1_fold_analyses (side : Side) (mns : Nat)
    (pl : List (List Str × List Str)) (init : List (Str × Str) × Morphology)
    (s : Side) :
    (pl.foldl (Morphology.find_signatures1_step side mns)
        init).2.get_analyses_list s
      = init.2.get_analyses_list s := by
  refine foldl_preserve (P := fun p : List (Str × Str) × Morphology =>
    p.2.get_analyses_list s = init.2.get_analyses_list s) ?_ rfl
  intro b x hb
  obtain ⟨validated, mb⟩ := b
  unfold Morphology.find_signatures1_step
  dsimp only
  split
  · exact hb
  · simpa [get_analyses_set_protostems] using hb

theorem bigram_bio_add_analyses {func : Str} {side : Side} {m m' : Morphology}
    {bg : Str × Str}
    (h : Morphology.bigram_bio_add func side m bg = some m') :
    ∀ s, m'.get_analyses_list s = m.get_analyses_list s :=
  lex_add_analyses h

theorem find_signatures1_analyses {m m' : Morphology} {msl mns : Nat}
    {side : Side} (h : m.find_signatures1 msl mns side = some m') :
    m'.get_analyses_list side
        = m.get_analyses_list side ++ [lit "find_signatures1"]
    ∧ ∀ s, s ≠ side → m'.get_analyses_list s = m.get_analyses_list s := by
  unfold Morphology.find_signatures1 at h
  simp only [Option.bind_eq_bind, Option.bind_eq_some, Option.pure_def,
    Option.some.injEq] at h
  obtain ⟨m₂, hF, hG⟩ := h
  have hrel : ∀ s, m₂.get_analyses_list s
      = m.get_analyses_list s := by
    intro s
    have h1 := foldlM_preserve_rel
      (R := fun a b : Morphology =>
        b.get_analyses_list s = a.get_analyses_list s)
      (fun b => rfl) (fun a b c hab hbc => hbc.trans hab)
      (fun b x b₂ hx => bigram_bio_add_analyses hx s) hF
    exact h1.trans (fs1_fold_analyses side mns _ _ s)
  constructor
  · rw [← hG, get_analyses_mark_same, get_analyses_build_signatures, hrel]
  · intro s hs
    rw [← hG, get_analyses_mark_ne hs, get_analyses_build_signatures, hrel]

end Pycrab

namespace Pycrab

theorem fgsib_fold_analyses (signatures : List Sig) (side : Side)
    (ps : List Str) (init : List (Str × Str) × Morphology) (s : Side) :
    (ps.foldl (Morphology.fgsib_step signatures side) init).2.get_analyses_list s
      = init.2.get_analyses_list s := by
  refine foldl_preserve (P := fun p : List (Str × Str) × Morphology =>
    p.2.get_analyses_list s = init.2.get_analyses_list s) ?_ rfl
  intro b x hb
  obtain ⟨bigrams, mb⟩ := b
  unfold Morphology.fgsib_step
  dsimp only
  rw [get_analyses_set_protostems]
  exact hb

theorem find_good_signatures_inside_bad_analyses {m m' : Morphology}
    {side : Side} (h : m.find_good_signatures_inside_bad side = some m') :
    m'.get_analyses_list side
        = m.get_analyses_list side ++ [lit "find_good_signatures_inside_bad"]
    ∧ ∀ s, s ≠ side → m'.get_analyses_list s = m.get_analyses_list s := by
  unfold Morphology.find_good_signatures_inside_bad at h
  simp only [Option.bind_eq_bind, Option.bind_eq_some, Option.pure_def,
    Option.some.injEq] at h
  obtain ⟨m₂, hF, hG⟩ := h
  have hrel : ∀ s, m₂.get_analyses_list s = m.get_analyses_list s := by
    intro s
    have h1 := foldlM_preserve_rel
      (R := fun a b : Morphology =>
        b.get_analyses_list s = a.get_analyses_list s)
      (fun b => rfl) (fun a b c hab hbc => hbc.trans hab)
      (fun b x b₂ hx => bigram_bio_add_analyses hx s) hF
    exact h1.trans (fgsib_fold_analyses _ side _ _ s)
  constructor
  · rw [← hG, get_analyses_build_signatures, get_analyses_mark_same, hrel]
  · intro s hs
    rw [← hG, get_analyses_build_signatures, get_analyses_mark_ne hs, hrel]

theorem pair_rel_trans {s : Side} :
    ∀ a b c : List (Str × Str) × Morphology,
      b.2.get_analyses_list s = a.2.get_analyses_list s →
      c.2.get_analyses_list s = b.2.get_analyses_list s →
      c.2.get_analyses_list s = a.2.get_analyses_list s :=
  fun _ _ _ hab hbc => hbc.trans hab

theorem split_rewire1_affix_analyses {func : Str} {side : Side}
    {diff stem : Str} {b b' : List (Str × Str) × Morphology} {affix : Str}
    (h : Morphology.split_rewire1_affix func side diff stem b affix = some b') (s : Side) :
    b'.2.get_analyses_list s = b.2.get_analyses_list s := by
  obtain ⟨bigrams, mb⟩ := b
  unfold Morphology.split_rewire1_affix at h
  dsimp only at h
  by_cases hp : diff.isPrefixOf affix
  · rw [if_pos hp] at h
    simp only [Option.bind_eq_bind, Option.bind_eq_some, Option.pure_def,
      Option.some.injEq] at h
    obtain ⟨m₂, hx, hb⟩ := h
    rw [← hb]
    exact lex_discard_analyses hx s
  · rw [if_neg hp] at h
    simp only [Option.pure_def, Option.some.injEq] at h
    rw [← h]

theorem split_rewire1_stem_analyses {func : Str} {side : Side}
    {diff indexed_diff : Str} {short_sig : Sig}
    {b b' : List (Str × Str) × Morphology} {stem : Str}
    (h : Morphology.split_rewire1_stem func side diff indexed_diff short_sig b stem
      = some b') (s : Side) :
    b'.2.get_analyses_list s = b.2.get_analyses_list s := by
  obtain ⟨bigrams, mb⟩ := b
  unfold Morphology.split_rewire1_stem at h
  dsimp only at h
  have h1 := foldlM_preserve_rel (R := fun a b : List (Str × Str) × Morphology =>
      b.2.get_analyses_list s = a.2.get_analyses_list s)
    (fun b => rfl) pair_rel_trans
    (fun b x b₂ hx => split_rewire1_affix_analyses hx s) h
  exact h1

theorem split_rewire2_stem_analyses {func : Str} {side : Side}
    {diff indexed_diff affix : Str} {b b' : List (Str × Str) × Morphology}
    {stem : Str}
    (h : Morphology.split_rewire2_stem func side diff indexed_diff affix b stem
      = some b') (s : Side) :
    b'.2.get_analyses_list s = b.2.get_analyses_list s := by
  obtain ⟨bigrams, mb⟩ := b
  unfold Morphology.split_rewire2_stem at h
  dsimp only at h
  simp only [Option.bind_eq_bind, Option.bind_eq_some, Option.pure_def,
    Option.some.injEq] at h
  obtain ⟨m₂, hx, m₃, hy, hb⟩ := h
  rw [← hb]
  exact ((lex_add_analyses hy s).trans (lex_discard_analyses hx s) : _)

theorem split_rewire2_affix_analyses {func : Str} {side : Side}
    {diff indexed_diff : Str} {short_stems : List Str}
    {b b' : List (Str × Str) × Morphology} {affix : Str}
    (h : Morphology.split_rewire2_affix func side diff indexed_diff short_stems b affix
      = some b') (s : Side) :
    b'.2.get_analyses_list s = b.2.get_analyses_list s := by
  obtain ⟨bigrams, mb⟩ := b
  unfold Morphology.split_rewire2_affix at h
  dsimp only at h
  have h1 := foldlM_preserve_rel (R := fun a b : List (Str × Str) × Morphology =>
      b.2.get_analyses_list s = a.2.get_analyses_list s)
    (fun b => rfl) pair_rel_trans
    (fun b x b₂ hx => split_rewire2_stem_analyses hx s) h
  exact h1

theorem process_biparse_analyses {func : Str} {side : Side}
    {b b' : List (Str × Str) × Morphology}
    {g : (Str × Str × Str) × List Str}
    (h : Morphology.process_biparse func side b g = some b') (s : Side) :
    b'.2.get_analyses_list s = b.2.get_analyses_list s := by
  obtain ⟨bigrams, mb⟩ := b
  unfold Morphology.process_biparse at h
  simp only [Option.bind_eq_bind, Option.bind_eq_some] at h
  obtain ⟨ssig, hs1, lsig, hs2, bm, hF1, hF2⟩ := h
  have e1 : ∀ s, (mb.add_new_index g.1.1 side).2.get_analyses_list s
      = mb.get_analyses_list s := add_new_index_analyses mb g.1.1 side
  have h1 := foldlM_preserve_rel (R := fun a b : List (Str × Str) × Morphology =>
      b.2.get_analyses_list s = a.2.get_analyses_list s)
    (fun b => rfl) pair_rel_trans
    (fun b x b₂ hx => split_rewire1_stem_analyses hx s) hF1
  have h2 := foldlM_preserve_rel (R := fun a b : List (Str × Str) × Morphology =>
      b.2.get_analyses_list s = a.2.get_analyses_list s)
    (fun b => rfl) pair_rel_trans
    (fun b x b₂ hx => split_rewire2_affix_analyses hx s) hF2
  exact (h2.trans h1).trans (e1 s)

theorem copy_parses_step_analyses {func : Str} {side : Side}
    {m m' : Morphology} {kw : Str × Word}
    (h : Morphology.copy_parses_step func side m kw = some m') (s : Side) :
    m'.get_analyses_list s = m.get_analyses_list s := by
  unfold Morphology.copy_parses_step at h
  exact foldlM_preserve_rel (R := fun a b : Morphology =>
      b.get_analyses_list s = a.get_analyses_list s)
    (fun b => rfl) (fun a b c hab hbc => hbc.trans hab)
    (fun b x b₂ hx => lex_add_analyses hx s) h

theorem split_affixes_analyses {m m' : Morphology} {side : Side}
    (h : m.split_affixes side = some m') :
    m'.get_analyses_list side
        = m.get_analyses_list side ++ [lit "split_affixes"]
    ∧ ∀ s, s ≠ side → m'.get_analyses_list s = m.get_analyses_list s := by
  unfold Morphology.split_affixes at h
  simp only [Option.bind_eq_bind, Option.bind_eq_some, Option.pure_def,
    Option.some.injEq] at h
  obtain ⟨groups, hg, m₂, hcopy, bm, hF, hG⟩ := h
  have hrel : ∀ s, bm.2.get_analyses_list s = m.get_analyses_list s := by
    intro s
    have h1 := foldlM_preserve_rel (R := fun a b : Morphology =>
        b.get_analyses_list s = a.get_analyses_list s)
      (fun b => rfl) (fun a b c hab hbc => hbc.trans hab)
      (fun b x b₂ hx => copy_parses_step_analyses hx s) hcopy
    have h2 := foldlM_preserve_rel (R := fun a b : List (Str × Str) × Morphology =>
        b.2.get_analyses_list s = a.2.get_analyses_list s)
      (fun b => rfl) pair_rel_trans
      (fun b x b₂ hx => process_biparse_analyses hx s) hF
    exact h2.trans h1
  constructor
  · rw [← hG, get_analyses_mark_same, get_analyses_build_signatures, hrel]
  · intro s hs
    rw [← hG, get_analyses_mark_ne hs, get_analyses_build_signatures, hrel]

theorem create_families_analyses (m : Morphology) (nsf : Nat) (mr : Int)
    (side : Side) :
    ∀ s, (m.create_families nsf mr side).get_analyses_list s
      = m.get_analyses_list s := by
  intro s
  unfold Morphology.create_families
  cases side <;> cases s <;> rfl

end Pycrab

namespace Pycrab

theorem side_other_ne (side : Side) : side.other ≠ side := by
  cases side <;> decide

theorem populated_analyses (m : Morphology) (lex : List (Str × Word))
    (s : Side) :
    ({ m.reset with lexicon := lex } : Morphology).get_analyses_list s = [] := by
  cases s <;> rfl

/-- C2 (amended): `learn_from_wordlist` is independent of all prior state
(the reset precedes everything), and after a successful run the requested
side has been through `find_signatures1`, then
`find_good_signatures_inside_bad` (not `widen_signatures`, whose call is
commented out), then `split_affixes`, while the *other* side has only been
through `find_signatures1` — the later passes and family construction run
for the requested side only. -/
theorem claim_C2_learn_pipeline (m m₂ : Morphology) (wordlist : List Str)
    (low : Bool) (msl mns nsf : Nat) (mr : Int) (side : Side)
    (m' : Morphology)
    (h : m.learn_from_wordlist wordlist low msl mns nsf mr side = some m') :
    m₂.learn_from_wordlist wordlist low msl mns nsf mr side = some m'
    ∧ m'.get_analyses_list side
        = [lit "find_signatures1", lit "find_good_signatures_inside_bad",
           lit "split_affixes"]
    ∧ m'.get_analyses_list side.other = [lit "find_signatures1"] := by
  have hindep : m₂.learn_from_wordlist wordlist low msl mns nsf mr side
      = m.learn_from_wordlist wordlist low msl mns nsf mr side := rfl
  refine ⟨hindep.trans h, ?_⟩
  unfold Morphology.learn_from_wordlist at h
  simp only [Option.bind_eq_bind, Option.bind_eq_some, Option.pure_def,
    Option.some.injEq] at h
  obtain ⟨a, h1, b, h2, c, h3, d, h4, hG⟩ := h
  have ha1 := find_signatures1_analyses h1
  have ha2 := find_signatures1_analyses h2
  have hb : ∀ s, b.get_analyses_list s = [lit "find_signatures1"] := by
    intro s
    cases s with
    | suffixal =>
        rw [ha2.2 Side.suffixal (by decide), ha1.1, populated_analyses]
        rfl
    | prefixal =>
        rw [ha2.1, ha1.2 Side.prefixal (by decide), populated_analyses]
        rfl
  have ha3 := find_good_signatures_inside_bad_analyses h3
  have ha4 := split_affixes_analyses h4
  have hcf := create_families_analyses d nsf mr side
  constructor
  · rw [← hG, hcf, ha4.1, ha3.1, hb]
    rfl
  · rw [← hG, hcf, ha4.2 side.other (side_other_ne side),
      ha3.2 side.other (side_other_ne side), hb]

/-- C2 counterexample: the prefixal side does not get the full
{find-initial-signatures, widening, affix-splitting} pass — after a run
with the default suffixal side, the list of prefixal analyses run holds
one entry, not three. -/
theorem claim_C2_counterexample :
    (Morphology.empty.learn_from_wordlist [] true 2 2 1 10
        Side.suffixal).map (fun m => m.prefixal_analyses_run)
      = some [lit "find_signatures1"]
    ∧ ([lit "find_signatures1"] : List Str).length ≠ 3 := by
  exact ⟨rfl, by decide⟩

/-- C2 witness: a concrete successful run with the analyses lists the
amended claim describes. -/
theorem claim_C2_witness :
    (Morphology.empty.learn_from_wordlist [] true 2 2 1 10
        Side.suffixal).map
      (fun m => (m.get_analyses_list Side.suffixal,
                 m.get_analyses_list Side.prefixal))
      = some ([lit "find_signatures1", lit "find_good_signatures_inside_bad",
               lit "split_affixes"], [lit "find_signatures1"]) := by
  rcases hE : Morphology.empty.learn_from_wordlist [] true 2 2 1 10
      Side.suffixal with _ | mr
  · exact absurd hE (by decide)
  · have h := claim_C2_learn_pipeline Morphology.empty Morphology.empty []
      true 2 2 1 10 Side.suffixal mr hE
    show some (mr.get_analyses_list Side.suffixal,
               mr.get_analyses_list Side.prefixal) = _
    rw [h.2.1]
    rw [show mr.get_analyses_list Side.prefixal = [lit "find_signatures1"]
      from h.2.2]

end Pycrab

namespace Pycrab

theorem strLt_irrefl : ∀ a : Str, strLt a a = false := by
  intro a
  induction a with
  | nil => rfl
  | cons c t ih => simp [strLt, ih]

theorem strLt_asymm : ∀ a b : Str, strLt a b = true → strLt b a = false := by
  intro a
  induction a with
  | nil =>
      intro b h
      cases b with
      | nil => simp [strLt] at h
      | cons c t => rfl
  | cons c t ih =>
      intro b h
      cases b with
      | nil => simp [strLt] at h
      | cons d u =>
          by_cases hcd : c < d
          · rw [strLt, if_neg (asymm hcd), if_pos hcd]
          · by_cases hdc : d < c
            · rw [strLt, if_neg hcd, if_pos hdc] at h
              exact absurd h (by simp)
            · rw [strLt, if_neg hcd, if_neg hdc] at h
              rw [strLt, if_neg hdc, if_neg hcd]
              exact ih u h

theorem strLt_total :
    ∀ a b : Str, a = b ∨ strLt a b = true ∨ strLt b a = true := by
  intro a
  induction a with
  | nil =>
      intro b
      cases b with
      | nil => exact Or.inl rfl
      | cons d u => exact Or.inr (Or.inl rfl)
  | cons c t ih =>
      intro b
      cases b with
      | nil => exact Or.inr (Or.inr rfl)
      | cons d u =>
          rcases lt_trichotomy c d with hcd | hcd | hcd
          · exact Or.inr (Or.inl (by rw [strLt, if_pos hcd]))
          · subst hcd
            rcases ih u with h | h | h
            · exact Or.inl (by rw [h])
            · refine Or.inr (Or.inl ?_)
              rw [strLt, if_neg (lt_irrefl c), if_neg (lt_irrefl c)]
              exact h
            · refine Or.inr (Or.inr ?_)
              rw [strLt, if_neg (lt_irrefl c), if_neg (lt_irrefl c)]
              exact h
          · exact Or.inr (Or.inr (by rw [strLt, if_pos hcd]))

theorem strLt_trans :
    ∀ a b c : Str, strLt a b = true → strLt b c = true → strLt a c = true := by
  intro a
  induction a with
  | nil =>
      intro b c hab hbc
      cases b with
      | nil => simp [strLt] at hab
      | cons d u =>
          cases c with
          | nil => simp [strLt] at hbc
          | cons e v => rfl
  | cons x t ih =>
      intro b c hab hbc
      cases b with
      | nil => simp [strLt] at hab
      | cons d u =>
          cases c with
          | nil => simp [strLt] at hbc
          | cons e v =>
              by_cases hxd : x < d
              · by_cases hde : d < e
                · rw [strLt, if_pos (lt_trans hxd hde)]
                · by_cases hed : e < d
                  · rw [strLt, if_neg hde, if_pos hed] at hbc
                    exact absurd hbc (by simp)
                  · have hde2 : d = e :=
                      le_antisymm (not_lt.1 hed) (not_lt.1 hde)
                    subst hde2
                    rw [strLt, if_pos hxd]
              · by_cases hdx : d < x
                · rw [strLt, if_neg hxd, if_pos hdx] at hab
                  exact absurd hab (by simp)
                · have hxd2 : x = d := le_antisymm (not_lt.1 hdx) (not_lt.1 hxd)
                  subst hxd2
                  rw [strLt, if_neg (lt_irrefl x), if_neg (lt_irrefl x)] at hab
                  by_cases hxe : x < e
                  · rw [strLt, if_pos hxe]
                  · by_cases hex : e < x
                    · rw [strLt, if_neg hxe, if_pos hex] at hbc
                      exact absurd hbc (by simp)
                    · have hxe2 : x = e :=
                        le_antisymm (not_lt.1 hex) (not_lt.1 hxe)
                      subst hxe2
                      rw [strLt, if_neg (lt_irrefl x), if_neg (lt_irrefl x)]
                        at hbc ⊢
                      exact ih u v hab hbc

theorem strLe_total (a b : Str) : strLe a b = true ∨ strLe b a = true := by
  unfold strLe
  rcases strLt_total a b with h | h | h
  · subst h
    simp [strLt_irrefl]
  · simp [strLt_asymm a b h]
  · simp [strLt_asymm b a h]

theorem strLe_antisymm {a b : Str} (hab : strLe a b = true)
    (hba : strLe b a = true) : a = b := by
  unfold strLe at hab hba
  rcases strLt_total a b with h | h | h
  · exact h
  · rw [h] at hba
    exact absurd hba (by simp)
  · rw [h] at hab
    exact absurd hab (by simp)

theorem strLe_trans {a b c : Str} (hab : strLe a b = true)
    (hbc : strLe b c = true) : strLe a c = true := by
  unfold strLe at hab hbc ⊢
  simp only [Bool.not_eq_true'] at hab hbc ⊢
  by_contra hca
  simp only [Bool.not_eq_false] at hca
  rcases strLt_total a b with h | h | h
  · subst h
    rw [hca] at hbc
    exact absurd hbc (by simp)
  · rcases strLt_total b c with h2 | h2 | h2
    · subst h2
      rw [hca] at hab
      exact absurd hab (by simp)
    · have h3 := strLt_trans _ _ _ (strLt_trans _ _ _ h h2) hca
      rw [strLt_irrefl] at h3
      exact absurd h3 (by simp)
    · rw [h2] at hbc
      exact absurd hbc (by simp)
  · rw [h] at hab
    exact absurd hab (by simp)

theorem insertLe_perm (le : α → α → Bool) (x : α) :
    ∀ l : List α, List.Perm (insertLe le x l) (x :: l) := by
  intro l
  induction l with
  | nil => rfl
  | cons y ys ih =>
      unfold insertLe
      by_cases h : le x y
      · rw [if_pos h]
      · rw [if_neg h]
        exact (List.Perm.cons y ih).trans (List.Perm.swap x y ys)

theorem sortBy_perm (le : α → α → Bool) :
    ∀ l : List α, List.Perm (sortBy le l) l := by
  intro l
  induction l with
  | nil => rfl
  | cons x xs ih =>
      unfold sortBy at ih ⊢
      rw [List.foldr_cons]
      exact (insertLe_perm le x _).trans (List.Perm.cons x ih)

theorem mem_sortBy {le : α → α → Bool} {x : α} {l : List α} :
    x ∈ sortBy le l ↔ x ∈ l :=
  (sortBy_perm le l).mem_iff

theorem insertLe_sorted {le : α → α → Bool}
    (htot : ∀ a b, le a b = true ∨ le b a = true)
    (htrans : ∀ a b c, le a b = true → le b c = true → le a c = true)
    (x : α) :
    ∀ {l : List α}, List.Sorted (fun a b => le a b = true) l →
      List.Sorted (fun a b => le a b = true) (insertLe le x l) := by
  intro l
  induction l with
  | nil => intro _; simp [insertLe]
  | cons y ys ih =>
      intro hs
      rw [List.sorted_cons] at hs
      unfold insertLe
      by_cases h : le x y
      · rw [if_pos h]
        rw [List.sorted_cons]
        refine ⟨?_, by rw [List.sorted_cons]; exact hs⟩
        intro b hb
        rcases List.mem_cons.1 hb with rfl | hb
        · exact h
        · exact htrans x y b h (hs.1 b hb)
      · rw [if_neg h]
        rw [List.sorted_cons]
        constructor
        · intro b hb
          rcases (insertLe_perm le x ys).mem_iff.1 hb with h2
          rcases List.mem_cons.1 h2 with rfl | hb2
          · rcases htot y b with hyb | hby
            · exact hyb
            · exact absurd hby h
          · exact hs.1 b hb2
        · exact ih hs.2

theorem sortBy_sorted {le : α → α → Bool}
    (htot : ∀ a b, le a b = true ∨ le b a = true)
    (htrans : ∀ a b c, le a b = true → le b c = true → le a c = true) :
    ∀ l : List α, List.Sorted (fun a b => le a b = true) (sortBy le l) := by
  intro l
  induction l with
  | nil => simp [sortBy]
  | cons x xs ih =>
      unfold sortBy at ih ⊢
      rw [List.foldr_cons]
      exact insertLe_sorted htot htrans x ih

theorem sortBy_strLe_eq_of_mem_iff {l₁ l₂ : List Str} (h₁ : l₁.Nodup)
    (h₂ : l₂.Nodup) (hm : ∀ a, a ∈ l₁ ↔ a ∈ l₂) :
    sortBy strLe l₁ = sortBy strLe l₂ := by
  letI : IsAntisymm Str (fun a b => strLe a b = true) :=
    ⟨fun a b hab hba => strLe_antisymm hab hba⟩
  have hp : List.Perm (sortBy strLe l₁) (sortBy strLe l₂) := by
    refine (sortBy_perm strLe l₁).trans
      (List.Perm.trans ?_ (sortBy_perm strLe l₂).symm)
    exact (List.perm_ext_iff_of_nodup h₁ h₂).2 hm
  exact List.eq_of_perm_of_sorted hp
    (sortBy_sorted strLe_total (fun a b c => strLe_trans) l₁)
    (sortBy_sorted strLe_total (fun a b c => strLe_trans) l₂)

end Pycrab


namespace Pycrab

theorem mem_setAdd [DecidableEq α] {a x : α} {s : List α} :
    a ∈ setAdd x s ↔ a = x ∨ a ∈ s := by
  unfold setAdd
  by_cases h : x ∈ s
  · rw [if_pos h]
    constructor
    · exact Or.inr
    · rintro (rfl | h2)
      · exact h
      · exact h2
  · rw [if_neg h]
    simp [or_comm]

theorem setAdd_nodup [DecidableEq α] {x : α} {s : List α} (h : s.Nodup) :
    (setAdd x s).Nodup := by
  unfold setAdd
  by_cases hx : x ∈ s
  · rwa [if_pos hx]
  · rw [if_neg hx]
    simpa [List.nodup_append] using And.intro h hx

theorem alookup_upsert_self [DecidableEq K] {k : K} {v : V} :
    ∀ d : List (K × V), alookup k (upsert k v d) = some v := by
  intro d
  induction d with
  | nil => simp [upsert, alookup]
  | cons hd tl ih =>
      obtain ⟨k₀, v₀⟩ := hd
      by_cases hk : k₀ = k
      · rw [upsert, if_pos hk, alookup, if_pos rfl]
      · rw [upsert, if_neg hk, alookup, if_neg hk, ih]

theorem alookup_upsert_ne [DecidableEq K] {k k' : K} {v : V} (hne : k' ≠ k) :
    ∀ d : List (K × V), alookup k' (upsert k v d) = alookup k' d := by
  intro d
  induction d with
  | nil =>
      rw [upsert]
      show (if k = k' then some v else alookup k' []) = alookup k' []
      rw [if_neg (fun h : k = k' => hne h.symm)]
  | cons hd tl ih =>
      obtain ⟨k₀, v₀⟩ := hd
      by_cases hk : k₀ = k
      · subst hk
        rw [upsert, if_pos rfl, alookup, alookup,
          if_neg (fun h : k₀ = k' => hne h.symm),
          if_neg (fun h : k₀ = k' => hne h.symm)]
      · rw [upsert, if_neg hk, alookup, alookup]
        by_cases hk2 : k₀ = k'
        · rw [if_pos hk2, if_pos hk2]
        · rw [if_neg hk2, if_neg hk2, ih]

theorem alookup_isSome_of_mem_keys [DecidableEq K] {k : K} :
    ∀ {d : List (K × V)}, k ∈ keysOf d → ∃ v, alookup k d = some v := by
  intro d
  induction d with
  | nil => intro h; simp [keysOf] at h
  | cons hd tl ih =>
      obtain ⟨k₀, v₀⟩ := hd
      intro h
      by_cases hk : k₀ = k
      · exact ⟨v₀, by rw [alookup, if_pos hk]⟩
      · simp only [keysOf, List.map_cons, List.mem_cons] at h
        rcases h with h | h
        · exact absurd h.symm hk
        · obtain ⟨v, hv⟩ := ih h
          exact ⟨v, by rw [alookup, if_neg hk, hv]⟩

theorem groupBy_lookup {α K' β : Type} [DecidableEq K'] [DecidableEq β]
    {f : α → K'} {g : α → β} :
    ∀ (l : List α) (acc : List (K' × List β)) (k : K') (b : β),
      (b ∈ (alookup k (l.foldl
          (fun acc x =>
            upsert (f x) (setAdd (g x) ((alookup (f x) acc).getD [])) acc)
          acc)).getD []
        ↔ b ∈ (alookup k acc).getD [] ∨ ∃ x ∈ l, f x = k ∧ g x = b) := by
  intro l
  induction l with
  | nil => intro acc k b; simp
  | cons x xs ih =>
      intro acc k b
      rw [List.foldl_cons]
      rw [ih]
      by_cases hk : f x = k
      · rw [hk, alookup_upsert_self]
        simp only [Option.getD_some, mem_setAdd, List.mem_cons]
        constructor
        · rintro ((rfl | hb) | hex)
          · exact Or.inr ⟨x, Or.inl rfl, hk, rfl⟩
          · exact Or.inl hb
          · obtain ⟨y, hy, hfy, hgy⟩ := hex
            exact Or.inr ⟨y, Or.inr hy, hfy, hgy⟩
        · rintro (hb | ⟨y, (rfl | hy), hfy, hgy⟩)
          · exact Or.inl (Or.inr hb)
          · exact Or.inl (Or.inl hgy.symm)
          · exact Or.inr ⟨y, hy, hfy, hgy⟩
      · rw [alookup_upsert_ne (fun h => hk h.symm)]
        constructor
        · rintro (hb | ⟨y, hy, hfy, hgy⟩)
          · exact Or.inl hb
          · exact Or.inr ⟨y, List.mem_cons_of_mem _ hy, hfy, hgy⟩
        · rintro (hb | ⟨y, hy, hfy, hgy⟩)
          · exact Or.inl hb
          · rcases List.mem_cons.1 hy with rfl | hy2
            · exact absurd hfy hk
            · exact Or.inr ⟨y, hy2, hfy, hgy⟩

theorem groupBy_keys {α K' β : Type} [DecidableEq K'] [DecidableEq β]
    {f : α → K'} {g : α → β} :
    ∀ (l : List α) (acc : List (K' × List β)) (k : K'),
      (k ∈ keysOf (l.foldl
          (fun acc x =>
            upsert (f x) (setAdd (g x) ((alookup (f x) acc).getD [])) acc)
          acc)
        ↔ k ∈ keysOf acc ∨ ∃ x ∈ l, f x = k) := by
  intro l
  induction l with
  | nil => intro acc k; simp
  | cons x xs ih =>
      intro acc k
      rw [List.foldl_cons, ih, mem_keysOf_upsert]
      constructor
      · rintro ((rfl | hk) | hex)
        · exact Or.inr ⟨x, List.mem_cons_self x xs, rfl⟩
        · exact Or.inl hk
        · obtain ⟨y, hy, hfy⟩ := hex
          exact Or.inr ⟨y, List.mem_cons_of_mem _ hy, hfy⟩
      · rintro (hk | ⟨y, hy, hfy⟩)
        · exact Or.inl (Or.inr hk)
        · rcases List.mem_cons.1 hy with rfl | hy2
          · exact Or.inl (Or.inl hfy.symm)
          · exact Or.inr ⟨y, hy2, hfy⟩

theorem groupBy_keys_nodup {α K' β : Type} [DecidableEq K'] [DecidableEq β]
    {f : α → K'} {g : α → β} (l : List α) (acc : List (K' × List β))
    (h : (keysOf acc).Nodup) :
    (keysOf (l.foldl
        (fun acc x =>
          upsert (f x) (setAdd (g x) ((alookup (f x) acc).getD [])) acc)
        acc)).Nodup := by
  refine foldl_preserve (P := fun d : List (K' × List β) =>
    (keysOf d).Nodup) ?_ h
  intro b x hb
  exact keysOf_upsert_nodup hb

theorem groupBy_values_nodup {α K' β : Type} [DecidableEq K'] [DecidableEq β]
    {f : α → K'} {g : α → β} (l : List α) (acc : List (K' × List β))
    (h : ∀ kv ∈ acc, kv.2.Nodup) :
    ∀ kv ∈ (l.foldl
        (fun acc x =>
          upsert (f x) (setAdd (g x) ((alookup (f x) acc).getD [])) acc)
        acc), kv.2.Nodup := by
  refine foldl_preserve (P := fun d : List (K' × List β) =>
    ∀ kv ∈ d, kv.2.Nodup) ?_ h
  intro b x hb kv hkv
  rcases mem_upsert hkv with rfl | hkv2
  · refine setAdd_nodup ?_
    rcases ha : alookup (f x) b with _ | l₀
    · simp
    · simpa using hb _ (alookup_mem ha)
  · exact hb kv hkv2

end Pycrab

namespace Pycrab

open Morphology (bigramStem bigramAffix stem_to_affixes stem_sets_of)

theorem bigramStem_switch (side : Side) (s a : Str) :
    bigramStem side (switch_if_needed (s, a) side) = s := by
  cases side <;> rfl

theorem bigramAffix_switch (side : Side) (s a : Str) :
    bigramAffix side (switch_if_needed (s, a) side) = a := by
  cases side <;> rfl

theorem switch_stem_affix (side : Side) (bg : Str × Str) :
    switch_if_needed (bigramStem side bg, bigramAffix side bg) side = bg := by
  cases side <;> simp [switch_if_needed, bigramStem, bigramAffix]

theorem stem_to_affixes_lookup {side : Side} {bigrams : List (Str × Str)}
    {s a : Str} :
    a ∈ (alookup s (stem_to_affixes side bigrams)).getD []
      ↔ ∃ bg ∈ bigrams, bigramStem side bg = s ∧ bigramAffix side bg = a := by
  unfold stem_to_affixes
  rw [groupBy_lookup (f := bigramStem side) (g := bigramAffix side)]
  constructor
  · rintro (h | ⟨bg, hbg, h1, h2⟩)
    · simp [alookup] at h
    · exact ⟨bg, mem_sortBy.1 hbg, h1, h2⟩
  · rintro ⟨bg, hbg, h1, h2⟩
    exact Or.inr ⟨bg, mem_sortBy.2 hbg, h1, h2⟩

theorem stem_to_affixes_keys {side : Side} {bigrams : List (Str × Str)}
    {s : Str} :
    s ∈ keysOf (stem_to_affixes side bigrams)
      ↔ ∃ bg ∈ bigrams, bigramStem side bg = s := by
  unfold stem_to_affixes
  rw [groupBy_keys (f := bigramStem side) (g := bigramAffix side)]
  constructor
  · rintro (h | ⟨bg, hbg, h1⟩)
    · simp [keysOf] at h
    · exact ⟨bg, mem_sortBy.1 hbg, h1⟩
  · rintro ⟨bg, hbg, h1⟩
    exact Or.inr ⟨bg, mem_sortBy.2 hbg, h1⟩

theorem stem_to_affixes_keys_nodup (side : Side)
    (bigrams : List (Str × Str)) :
    (keysOf (stem_to_affixes side bigrams)).Nodup := by
  unfold stem_to_affixes
  exact groupBy_keys_nodup (f := bigramStem side) (g := bigramAffix side) _ _
    (by simp [keysOf])

theorem stem_to_affixes_values_nodup (side : Side)
    (bigrams : List (Str × Str)) :
    ∀ kv ∈ stem_to_affixes side bigrams, kv.2.Nodup := by
  unfold stem_to_affixes
  exact groupBy_values_nodup (f := bigramStem side) (g := bigramAffix side)
    _ _ (by simp)

theorem stem_sets_of_lookup {d : List (Str × List Str)} {K : List Str}
    {t : Str} :
    t ∈ (alookup K (stem_sets_of d)).getD []
      ↔ ∃ sa ∈ d, sortBy strLe sa.2 = K ∧ sa.1 = t := by
  unfold stem_sets_of
  rw [groupBy_lookup (f := fun sa : Str × List Str => sortBy strLe sa.2)
    (g := fun sa : Str × List Str => sa.1)]
  constructor
  · rintro (h | h)
    · simp [alookup] at h
    · exact h
  · exact Or.inr

theorem stem_sets_of_keys {d : List (Str × List Str)} {K : List Str} :
    K ∈ keysOf (stem_sets_of d) ↔ ∃ sa ∈ d, sortBy strLe sa.2 = K := by
  unfold stem_sets_of
  rw [groupBy_keys (f := fun sa : Str × List Str => sortBy strLe sa.2)
    (g := fun sa : Str × List Str => sa.1)]
  constructor
  · rintro (h | h)
    · simp [keysOf] at h
    · exact h
  · exact Or.inr

theorem stem_sets_of_keys_nodup (d : List (Str × List Str)) :
    (keysOf (stem_sets_of d)).Nodup := by
  unfold stem_sets_of
  exact groupBy_keys_nodup
    (f := fun sa : Str × List Str => sortBy strLe sa.2)
    (g := fun sa : Str × List Str => sa.1) _ _ (by simp [keysOf])

theorem stem_sets_of_values_nodup (d : List (Str × List Str)) :
    ∀ kv ∈ stem_sets_of d, kv.2.Nodup := by
  unfold stem_sets_of
  exact groupBy_values_nodup
    (f := fun sa : Str × List Str => sortBy strLe sa.2)
    (g := fun sa : Str × List Str => sa.1) _ _ (by simp)

theorem sig_dict_set_self (m : Morphology) (side : Side)
    (d : List (Str × Sig)) : (m.set_sig_dict side d).sig_dict side = d := by
  cases side <;> rfl

theorem sig_dict_add_signature (m : Morphology) (st af : List (Str × Nat))
    (side : Side) :
    (m.add_signature st af side).sig_dict side
      = upsert (Sig.affix_string ⟨st, af, side⟩) ⟨st, af, side⟩
          (m.sig_dict side) := by
  cases side <;> rfl

theorem keysOf_map_pair {h : Str → Nat} (l : List Str) :
    keysOf (l.map (fun s => (s, h s))) = l := by
  unfold keysOf
  rw [List.map_map]
  exact List.map_id _

theorem upsert_ne_nil [DecidableEq K] (k : K) (v : V) (d : List (K × V)) :
    upsert k v d ≠ [] := by
  cases d with
  | nil => simp [upsert]
  | cons hd tl =>
      obtain ⟨k₀, v₀⟩ := hd
      unfold upsert
      by_cases hk : k₀ = k
      · rw [if_pos hk]; simp
      · rw [if_neg hk]; simp

theorem foldl_preserve_mem {α β : Type} {f : β → α → β} {P : β → Prop} :
    ∀ {l : List α}, (∀ b x, x ∈ l → P b → P (f b x)) →
      ∀ {b : β}, P b → P (l.foldl f b) := by
  intro l
  induction l with
  | nil => intro _ b hb; exact hb
  | cons x xs ih =>
      intro hf b hb
      exact ih (fun b y hy => hf b y (List.mem_cons_of_mem _ hy))
        (hf b x (List.mem_cons_self x xs) hb)

theorem build_signatures_mem {m : Morphology} {bigrams : List (Str × Str)}
    {side : Side} {mns : Nat} :
    ∀ kv ∈ (m.build_signatures bigrams side mns).sig_dict side,
      ∃ entry ∈ stem_sets_of (stem_to_affixes side bigrams),
        mns ≤ entry.2.length ∧ keysOf kv.2.stems = entry.2
          ∧ keysOf kv.2.affixes = entry.1 ∧ kv.2.affix_side = side := by
  unfold Morphology.build_signatures
  refine foldl_preserve_mem (P := fun m₀ : Morphology =>
    ∀ kv ∈ m₀.sig_dict side,
      ∃ entry ∈ stem_sets_of (stem_to_affixes side bigrams),
        mns ≤ entry.2.length ∧ keysOf kv.2.stems = entry.2
          ∧ keysOf kv.2.affixes = entry.1 ∧ kv.2.affix_side = side) ?_ ?_
  · intro b entry hentry hb kv hkv
    by_cases hτ : mns ≤ entry.2.length
    · rw [if_pos hτ] at hkv
      by_cases hc : (m.set_sig_dict side []).morpheme_counts side ≠ []
      · rw [if_pos hc, sig_dict_add_signature] at hkv
        rcases mem_upsert hkv with rfl | hold
        · exact ⟨entry, hentry, hτ, keysOf_map_pair _, keysOf_map_pair _, rfl⟩
        · exact hb kv hold
      · rw [if_neg hc, sig_dict_add_signature] at hkv
        rcases mem_upsert hkv with rfl | hold
        · exact ⟨entry, hentry, hτ, keysOf_map_pair _, keysOf_map_pair _, rfl⟩
        · exact hb kv hold
    · rw [if_neg hτ] at hkv
      exact hb kv hkv
  · intro kv hkv
    rw [sig_dict_set_self] at hkv
    simp at hkv

theorem build_signatures_nonempty {m : Morphology}
    {bigrams : List (Str × Str)} {side : Side} {mns : Nat}
    (h : ∃ entry ∈ stem_sets_of (stem_to_affixes side bigrams),
      mns ≤ entry.2.length) :
    (m.build_signatures bigrams side mns).sig_dict side ≠ [] := by
  unfold Morphology.build_signatures
  obtain ⟨entry, hentry, hτ⟩ := h
  have main : ∀ (counts : List (Str × Nat)) (l : List (List Str × List Str))
      (m₀ : Morphology),
      ((∃ e ∈ l, mns ≤ e.2.length) ∨ m₀.sig_dict side ≠ []) →
      (l.foldl (fun mm as =>
        if mns ≤ as.2.length then
          if counts ≠ [] then
            mm.add_signature (as.2.map (fun s => (s, countOf s counts)))
              (as.1.map (fun a => (a, countOf a counts))) side
          else
            mm.add_signature (as.2.map (fun s => (s, 1)))
              (as.1.map (fun a => (a, 1))) side
        else mm) m₀).sig_dict side ≠ [] := by
    intro counts l
    induction l with
    | nil =>
        intro m₀ h0
        rcases h0 with ⟨e, he, _⟩ | h0
        · simp at he
        · exact h0
    | cons e l ih =>
        intro m₀ h0
        rw [List.foldl_cons]
        rcases h0 with ⟨e₂, he₂, hτ₂⟩ | h0
        · rcases List.mem_cons.1 he₂ with rfl | he₂
          · refine ih _ (Or.inr ?_)
            rw [if_pos hτ₂]
            split
            · rw [sig_dict_add_signature]
              exact upsert_ne_nil _ _ _
            · rw [sig_dict_add_signature]
              exact upsert_ne_nil _ _ _
          · exact ih _ (Or.inl ⟨e₂, he₂, hτ₂⟩)
        · refine ih _ (Or.inr ?_)
          by_cases hτ₂ : mns ≤ e.2.length
          · rw [if_pos hτ₂]
            split
            · rw [sig_dict_add_signature]
              exact upsert_ne_nil _ _ _
            · rw [sig_dict_add_signature]
              exact upsert_ne_nil _ _ _
          · rw [if_neg hτ₂]
            exact h0
  exact main _ _ _ (Or.inl ⟨entry, hentry, hτ⟩)

end Pycrab

namespace Pycrab

open Morphology (bigramStem bigramAffix stem_to_affixes stem_sets_of)

theorem two_le_length_of_two_mem {l : List α} {a b : α} (ha : a ∈ l)
    (hb : b ∈ l) (hab : a ≠ b) : 2 ≤ l.length := by
  cases l with
  | nil => simp at ha
  | cons u t =>
      cases t with
      | nil =>
          simp at ha hb
          exact absurd (ha.trans hb.symm) hab
      | cons v w => simp only [List.length_cons]; omega

theorem exists_two_distinct_of_nodup {l : List α} (hnd : l.Nodup)
    (hlen : 2 ≤ l.length) : ∃ a ∈ l, ∃ b ∈ l, a ≠ b := by
  cases l with
  | nil => simp at hlen
  | cons u t =>
      cases t with
      | nil => simp at hlen
      | cons v w =>
          rw [List.nodup_cons] at hnd
          refine ⟨u, List.mem_cons_self u _, v,
            List.mem_cons_of_mem _ (List.mem_cons_self v _), ?_⟩
          intro h
          exact hnd.1 (h ▸ List.mem_cons_self v w)

/-- C6: for a bigram set made of one stem `x` with affix set `A` and two
distinct stems `y`, `z` sharing a different affix set `B`,
`build_signatures` with `min_num_stems = 2` produces a non-empty signature
dict whose every signature has stems exactly {y, z} and affixes exactly
the members of B — the size-1 group contributes no signature, stem or
affix. -/
theorem claim_C6_build_signatures_threshold
    (m : Morphology) (side : Side) (x y z : Str) (A B : List Str)
    (bigrams : List (Str × Str))
    (hxy : x ≠ y) (hxz : x ≠ z) (hyz : y ≠ z)
    (hA : A ≠ []) (hB : B ≠ [])
    (hAB : ¬ (∀ a, a ∈ A ↔ a ∈ B))
    (hmem : ∀ s a, switch_if_needed (s, a) side ∈ bigrams
       ↔ (s = x ∧ a ∈ A) ∨ ((s = y ∨ s = z) ∧ a ∈ B)) :
    (m.build_signatures bigrams side 2).sig_dict side ≠ []
    ∧ ∀ kv ∈ (m.build_signatures bigrams side 2).sig_dict side,
        (∀ t, t ∈ keysOf kv.2.stems ↔ (t = y ∨ t = z))
        ∧ (∀ a, a ∈ keysOf kv.2.affixes ↔ a ∈ B) := by
  have hbg : ∀ bg ∈ bigrams,
      (bigramStem side bg = x ∧ bigramAffix side bg ∈ A)
      ∨ ((bigramStem side bg = y ∨ bigramStem side bg = z)
          ∧ bigramAffix side bg ∈ B) := by
    intro bg hbgm
    have h2 := (hmem (bigramStem side bg) (bigramAffix side bg)).1
    rw [switch_stem_affix] at h2
    exact h2 hbgm
  have hlx : ∀ a, a ∈ (alookup x (stem_to_affixes side bigrams)).getD []
      ↔ a ∈ A := by
    intro a
    rw [stem_to_affixes_lookup]
    constructor
    · rintro ⟨bg, hbgm, hst, haf⟩
      rcases hbg bg hbgm with ⟨h1, h2⟩ | ⟨h1, h2⟩
      · exact haf ▸ h2
      · rcases h1 with h1 | h1
        · exact absurd (hst.symm.trans h1) hxy
        · exact absurd (hst.symm.trans h1) hxz
    · intro ha
      exact ⟨switch_if_needed (x, a) side, (hmem x a).2 (Or.inl ⟨rfl, ha⟩),
        bigramStem_switch side x a, bigramAffix_switch side x a⟩
  have hly : ∀ a, a ∈ (alookup y (stem_to_affixes side bigrams)).getD []
      ↔ a ∈ B := by
    intro a
    rw [stem_to_affixes_lookup]
    constructor
    · rintro ⟨bg, hbgm, hst, haf⟩
      rcases hbg bg hbgm with ⟨h1, h2⟩ | ⟨h1, h2⟩
      · exact absurd (hst.symm.trans h1).symm hxy
      · exact haf ▸ h2
    · intro ha
      exact ⟨switch_if_needed (y, a) side,
        (hmem y a).2 (Or.inr ⟨Or.inl rfl, ha⟩),
        bigramStem_switch side y a, bigramAffix_switch side y a⟩
  have hlz : ∀ a, a ∈ (alookup z (stem_to_affixes side bigrams)).getD []
      ↔ a ∈ B := by
    intro a
    rw [stem_to_affixes_lookup]
    constructor
    · rintro ⟨bg, hbgm, hst, haf⟩
      rcases hbg bg hbgm with ⟨h1, h2⟩ | ⟨h1, h2⟩
      · exact absurd (hst.symm.trans h1).symm hxz
      · exact haf ▸ h2
    · intro ha
      exact ⟨switch_if_needed (z, a) side,
        (hmem z a).2 (Or.inr ⟨Or.inr rfl, ha⟩),
        bigramStem_switch side z a, bigramAffix_switch side z a⟩
  have hkeys : ∀ s, s ∈ keysOf (stem_to_affixes side bigrams)
      ↔ (s = x ∨ s = y ∨ s = z) := by
    intro s
    rw [stem_to_affixes_keys]
    constructor
    · rintro ⟨bg, hbgm, hst⟩
      rcases hbg bg hbgm with ⟨h1, _⟩ | ⟨h1, _⟩
      · exact Or.inl (hst.symm.trans h1)
      · rcases h1 with h1 | h1
        · exact Or.inr (Or.inl (hst.symm.trans h1))
        · exact Or.inr (Or.inr (hst.symm.trans h1))
    · rintro (rfl | rfl | rfl)
      · obtain ⟨a, ha⟩ := List.exists_mem_of_ne_nil A hA
        exact ⟨switch_if_needed (s, a) side, (hmem s a).2 (Or.inl ⟨rfl, ha⟩),
          bigramStem_switch side s a⟩
      · obtain ⟨a, ha⟩ := List.exists_mem_of_ne_nil B hB
        exact ⟨switch_if_needed (s, a) side,
          (hmem s a).2 (Or.inr ⟨Or.inl rfl, ha⟩),
          bigramStem_switch side s a⟩
      · obtain ⟨a, ha⟩ := List.exists_mem_of_ne_nil B hB
        exact ⟨switch_if_needed (s, a) side,
          (hmem s a).2 (Or.inr ⟨Or.inr rfl, ha⟩),
          bigramStem_switch side s a⟩
  have hnd := stem_to_affixes_keys_nodup side bigrams
  have hvnd := stem_to_affixes_values_nodup side bigrams
  obtain ⟨lx, hlxe⟩ := alookup_isSome_of_mem_keys ((hkeys x).2 (Or.inl rfl))
  obtain ⟨ly, hlye⟩ :=
    alookup_isSome_of_mem_keys ((hkeys y).2 (Or.inr (Or.inl rfl)))
  obtain ⟨lz, hlze⟩ :=
    alookup_isSome_of_mem_keys ((hkeys z).2 (Or.inr (Or.inr rfl)))
  have hlxA : ∀ a, a ∈ lx ↔ a ∈ A := by
    intro a
    have h1 := hlx a
    rw [hlxe] at h1
    simpa using h1
  have hlyB : ∀ a, a ∈ ly ↔ a ∈ B := by
    intro a
    have h1 := hly a
    rw [hlye] at h1
    simpa using h1
  have hlzB : ∀ a, a ∈ lz ↔ a ∈ B := by
    intro a
    have h1 := hlz a
    rw [hlze] at h1
    simpa using h1
  have hxlx_mem : (x, lx) ∈ stem_to_affixes side bigrams := alookup_mem hlxe
  have hyly_mem : (y, ly) ∈ stem_to_affixes side bigrams := alookup_mem hlye
  have hzlz_mem : (z, lz) ∈ stem_to_affixes side bigrams := alookup_mem hlze
  have hlxnd : lx.Nodup := hvnd (x, lx) hxlx_mem
  have hlynd : ly.Nodup := hvnd (y, ly) hyly_mem
  have hlznd : lz.Nodup := hvnd (z, lz) hzlz_mem
  have hKyz : sortBy strLe ly = sortBy strLe lz :=
    sortBy_strLe_eq_of_mem_iff hlynd hlznd
      (fun a => (hlyB a).trans (hlzB a).symm)
  have hKxy : sortBy strLe lx ≠ sortBy strLe ly := by
    intro hEq
    apply hAB
    intro a
    have h1 : a ∈ lx ↔ a ∈ ly := by
      rw [← @mem_sortBy _ strLe a lx, hEq, mem_sortBy]
    exact ((hlxA a).symm.trans h1).trans (hlyB a)
  have hentry : ∀ e ∈ stem_to_affixes side bigrams,
      (e.1 = x ∧ e.2 = lx) ∨ (e.1 = y ∧ e.2 = ly) ∨ (e.1 = z ∧ e.2 = lz) := by
    intro e he
    have hk : e.1 ∈ keysOf (stem_to_affixes side bigrams) :=
      List.mem_map.2 ⟨e, he, rfl⟩
    have hlook : alookup e.1 (stem_to_affixes side bigrams) = some e.2 :=
      alookup_of_mem_nodup hnd (by simpa using he)
    rcases (hkeys e.1).1 hk with h | h | h
    · refine Or.inl ⟨h, ?_⟩
      rw [h] at hlook
      exact Option.some.inj (hlook.symm.trans hlxe)
    · refine Or.inr (Or.inl ⟨h, ?_⟩)
      rw [h] at hlook
      exact Option.some.inj (hlook.symm.trans hlye)
    · refine Or.inr (Or.inr ⟨h, ?_⟩)
      rw [h] at hlook
      exact Option.some.inj (hlook.symm.trans hlze)
  have hKmem : sortBy strLe ly
      ∈ keysOf (stem_sets_of (stem_to_affixes side bigrams)) :=
    stem_sets_of_keys.2 ⟨(y, ly), hyly_mem, rfl⟩
  obtain ⟨ts, hts⟩ := alookup_isSome_of_mem_keys hKmem
  have htsm : (sortBy strLe ly, ts)
      ∈ stem_sets_of (stem_to_affixes side bigrams) := alookup_mem hts
  have hts_char : ∀ t, t ∈ ts ↔ ∃ sa ∈ stem_to_affixes side bigrams,
      sortBy strLe sa.2 = sortBy strLe ly ∧ sa.1 = t := by
    intro t
    have h1 := stem_sets_of_lookup (d := stem_to_affixes side bigrams)
      (K := sortBy strLe ly) (t := t)
    rw [hts] at h1
    simpa using h1
  have hy_ts : y ∈ ts := (hts_char y).2 ⟨(y, ly), hyly_mem, rfl, rfl⟩
  have hz_ts : z ∈ ts := (hts_char z).2 ⟨(z, lz), hzlz_mem, hKyz.symm, rfl⟩
  have htsnd : ts.Nodup :=
    stem_sets_of_values_nodup _ (sortBy strLe ly, ts) htsm
  constructor
  · exact build_signatures_nonempty
      ⟨(sortBy strLe ly, ts), htsm, two_le_length_of_two_mem hy_ts hz_ts hyz⟩
  · intro kv hkv
    obtain ⟨entry, hentrym, hlen, hstems, haffs, _⟩ :=
      build_signatures_mem kv hkv
    have hmem_e : ∀ t, t ∈ entry.2
        ↔ ∃ sa ∈ stem_to_affixes side bigrams,
            sortBy strLe sa.2 = entry.1 ∧ sa.1 = t := by
      intro t
      have hlook : alookup entry.1
          (stem_sets_of (stem_to_affixes side bigrams)) = some entry.2 :=
        alookup_of_mem_nodup (stem_sets_of_keys_nodup _) (by simpa using hentrym)
      have h1 := stem_sets_of_lookup (d := stem_to_affixes side bigrams)
        (K := entry.1) (t := t)
      rw [hlook] at h1
      simpa using h1
    have hnd_e : entry.2.Nodup := stem_sets_of_values_nodup _ entry hentrym
    have hsub : ∀ t ∈ entry.2,
        (t = x ∧ entry.1 = sortBy strLe lx)
        ∨ (t = y ∧ entry.1 = sortBy strLe ly)
        ∨ (t = z ∧ entry.1 = sortBy strLe lz) := by
      intro t ht
      obtain ⟨sa, hsam, hsort, hfst⟩ := (hmem_e t).1 ht
      rcases hentry sa hsam with ⟨h1, h2⟩ | ⟨h1, h2⟩ | ⟨h1, h2⟩
      · exact Or.inl ⟨hfst ▸ h1, by rw [← hsort, h2]⟩
      · exact Or.inr (Or.inl ⟨hfst ▸ h1, by rw [← hsort, h2]⟩)
      · exact Or.inr (Or.inr ⟨hfst ▸ h1, by rw [← hsort, h2]⟩)
    obtain ⟨t₁, ht₁, t₂, ht₂, hne⟩ := exists_two_distinct_of_nodup hnd_e hlen
    have hKxz : sortBy strLe lx ≠ sortBy strLe lz := by
      rw [← hKyz]
      exact hKxy
    have hKB : entry.1 = sortBy strLe ly := by
      rcases hsub t₁ ht₁ with ⟨e₁, k₁⟩ | ⟨e₁, k₁⟩ | ⟨e₁, k₁⟩ <;>
        rcases hsub t₂ ht₂ with ⟨e₂, k₂⟩ | ⟨e₂, k₂⟩ | ⟨e₂, k₂⟩
      · exact absurd (e₁.trans e₂.symm) hne
      · exact absurd (k₁.symm.trans k₂) hKxy
      · exact absurd (k₁.symm.trans k₂) hKxz
      · exact absurd (k₂.symm.trans k₁) hKxy
      · exact k₁
      · exact k₁
      · exact absurd (k₂.symm.trans k₁) hKxz
      · exact k₁.trans hKyz.symm
      · exact k₁.trans hKyz.symm
    have hnox : ∀ t ∈ entry.2, t = y ∨ t = z := by
      intro t ht
      rcases hsub t ht with ⟨e₁, k₁⟩ | ⟨e₁, k₁⟩ | ⟨e₁, k₁⟩
      · exact absurd (k₁.symm.trans hKB) hKxy
      · exact Or.inl e₁
      · exact Or.inr e₁
    have hy_in : y ∈ entry.2 :=
      (hmem_e y).2 ⟨(y, ly), hyly_mem, hKB.symm, rfl⟩
    have hz_in : z ∈ entry.2 :=
      (hmem_e z).2 ⟨(z, lz), hzlz_mem, hKyz.symm.trans hKB.symm, rfl⟩
    constructor
    · intro t
      rw [hstems]
      refine ⟨hnox t, ?_⟩
      rintro (rfl | rfl)
      · exact hy_in
      · exact hz_in
    · intro a
      rw [haffs, hKB, mem_sortBy]
      exact hlyB a

end Pycrab

namespace Pycrab

theorem claim_C6_witness :
    (Morphology.empty.build_signatures
        [(lit "boot", lit "ed"), (lit "want", []), (lit "want", lit "ed"),
          (lit "add", []), (lit "add", lit "ed")] Side.suffixal 2).sig_dict
        Side.suffixal ≠ []
    ∧ ∀ kv ∈ (Morphology.empty.build_signatures
        [(lit "boot", lit "ed"), (lit "want", []), (lit "want", lit "ed"),
          (lit "add", []), (lit "add", lit "ed")] Side.suffixal 2).sig_dict
        Side.suffixal,
        (∀ t, t ∈ keysOf kv.2.stems ↔ (t = lit "want" ∨ t = lit "add"))
        ∧ (∀ a, a ∈ keysOf kv.2.affixes
            ↔ a ∈ ([[], lit "ed"] : List Str)) := by
  refine claim_C6_build_signatures_threshold Morphology.empty Side.suffixal
    (lit "boot") (lit "want") (lit "add") [lit "ed"]
    ([[], lit "ed"] : List Str)
    [(lit "boot", lit "ed"), (lit "want", []), (lit "want", lit "ed"),
      (lit "add", []), (lit "add", lit "ed")]
    (by decide) (by decide) (by decide) (by decide) (by decide) ?_ ?_
  · intro h
    exact absurd ((h ([] : Str)).2 (by decide)) (by decide)
  · intro s a
    simp only [switch_if_needed, List.mem_cons, List.mem_singleton,
      List.not_mem_nil, Prod.mk.injEq, or_false]
    constructor
    · rintro (⟨rfl, rfl⟩ | ⟨rfl, rfl⟩ | ⟨rfl, rfl⟩ | ⟨rfl, rfl⟩ | ⟨rfl, rfl⟩)
      · exact Or.inl ⟨rfl, by decide⟩
      · exact Or.inr ⟨Or.inl rfl, by decide⟩
      · exact Or.inr ⟨Or.inl rfl, by decide⟩
      · exact Or.inr ⟨Or.inr rfl, by decide⟩
      · exact Or.inr ⟨Or.inr rfl, by decide⟩
    · rintro (⟨rfl, ha⟩ | ⟨(rfl | rfl), ha⟩)
      · exact Or.inl ⟨rfl, ha⟩
      · rcases ha with rfl | rfl
        · exact Or.inr (Or.inl ⟨rfl, rfl⟩)
        · exact Or.inr (Or.inr (Or.inl ⟨rfl, rfl⟩))
      · rcases ha with rfl | rfl
        · exact Or.inr (Or.inr (Or.inr (Or.inl ⟨rfl, rfl⟩)))
        · exact Or.inr (Or.inr (Or.inr (Or.inr ⟨rfl, rfl⟩)))

end Pycrab

namespace Pycrab

theorem noMarker_nil : noMarker ([] : Str) := by
  intro h
  simp at h

theorem noMarker_drop {s : Str} (h : noMarker s) (n : Nat) :
    noMarker (s.drop n) :=
  fun hm => h (List.drop_subset n s hm)

theorem noMarker_pySliceDropLastN {s : Str} (h : noMarker s) (n : Nat) :
    noMarker (pySliceDropLastN n s) := by
  unfold pySliceDropLastN
  by_cases h0 : n = 0
  · rw [if_pos h0]; exact noMarker_nil
  · rw [if_neg h0]
    exact fun hm => h (List.take_subset _ s hm)

theorem digitChar_ne_marker {m : Nat} (h : m < 10) :
    Nat.digitChar m ≠ AFFIX_MARKER := by
  interval_cases m <;> decide

theorem noMarker_natReprAux : ∀ fuel n, noMarker (natReprAux fuel n) := by
  intro fuel
  induction fuel with
  | zero => intro n; exact noMarker_nil
  | succ fuel ih =>
      intro n
      unfold natReprAux
      split
      · intro hm
        simp only [List.mem_singleton] at hm
        exact digitChar_ne_marker (by omega) hm.symm
      · intro hm
        rcases List.mem_append.1 hm with hm | hm
        · exact ih (n / 10) hm
        · simp only [List.mem_singleton] at hm
          exact digitChar_ne_marker (Nat.mod_lt _ (by omega)) hm.symm

theorem noMarker_natRepr (n : Nat) : noMarker (natRepr n) :=
  noMarker_natReprAux (n + 1) n

theorem takeWhile_ne_append_marker {l r : Str} (h : noMarker l) :
    (l ++ AFFIX_MARKER :: r).takeWhile (· ≠ AFFIX_MARKER) = l := by
  induction l with
  | nil => simp [List.takeWhile]
  | cons c t ih =>
      unfold noMarker at h
      simp only [List.mem_cons] at h
      push_neg at h
      have hc : c ≠ AFFIX_MARKER := fun hc => h.1 hc.symm
      simp only [List.cons_append, List.takeWhile_cons]
      rw [if_pos (by simpa using hc)]
      rw [ih (fun hm => h.2 hm)]

theorem dropWhile_ne_append_marker {l r : Str} (h : noMarker l) :
    (l ++ AFFIX_MARKER :: r).dropWhile (· ≠ AFFIX_MARKER)
      = AFFIX_MARKER :: r := by
  induction l with
  | nil => simp [List.dropWhile]
  | cons c t ih =>
      unfold noMarker at h
      simp only [List.mem_cons] at h
      push_neg at h
      have hc : c ≠ AFFIX_MARKER := fun hc => h.1 hc.symm
      simp only [List.cons_append, List.dropWhile_cons]
      rw [if_pos (by simpa using hc)]
      exact ih (fun hm => h.2 hm)

theorem remove_disambiguation_index_id {side : Side} {s : Str}
    (h : noMarker s) : remove_disambiguation_index side s = s := by
  cases side with
  | suffixal =>
      unfold remove_disambiguation_index
      rw [List.takeWhile_eq_self_iff]
      intro x hx
      simpa using fun hm : x = AFFIX_MARKER => h (hm ▸ hx)
  | prefixal =>
      unfold remove_disambiguation_index
      rw [if_neg h]

end Pycrab

namespace Pycrab

theorem remove_add_new_index {m : Morphology} {diff : Str} {side : Side}
    (h : noMarker diff) :
    remove_disambiguation_index side (m.add_new_index diff side).1 = diff := by
  unfold Morphology.add_new_index
  by_cases h0 : diff = NULL_AFFIX ∨ AFFIX_MARKER ∈ diff
  · rw [if_pos h0]
    exact remove_disambiguation_index_id h
  · rw [if_neg h0]
    cases side with
    | prefixal =>
        show remove_disambiguation_index Side.prefixal
          (natRepr _ ++ [AFFIX_MARKER] ++ diff) = diff
        unfold remove_disambiguation_index
        rw [if_pos (by simp)]
        rw [List.append_assoc, List.singleton_append,
          dropWhile_ne_append_marker (noMarker_natRepr _)]
        simp
    | suffixal =>
        show remove_disambiguation_index Side.suffixal
          (diff ++ [AFFIX_MARKER] ++ natRepr _) = diff
        unfold remove_disambiguation_index
        rw [List.append_assoc, List.singleton_append,
          takeWhile_ne_append_marker h]

theorem add_new_index_lexicon (m : Morphology) (a : Str) (side : Side) :
    (m.add_new_index a side).2.lexicon = m.lexicon := by
  unfold Morphology.add_new_index
  by_cases h0 : a = NULL_AFFIX ∨ AFFIX_MARKER ∈ a
  · rw [if_pos h0]
  · rw [if_neg h0]
    cases side <;> rfl

theorem add_new_index_sig_dict (m : Morphology) (a : Str) (side s : Side) :
    (m.add_new_index a side).2.sig_dict s = m.sig_dict s := by
  unfold Morphology.add_new_index
  by_cases h0 : a = NULL_AFFIX ∨ AFFIX_MARKER ∈ a
  · rw [if_pos h0]
  · rw [if_neg h0]
    cases side <;> cases s <;> rfl

theorem lexicon_eq_sig_dict {m : Morphology} {L : List (Str × Word)}
    (s : Side) :
    ({ m with lexicon := L } : Morphology).sig_dict s = m.sig_dict s := by
  cases s <;> rfl

theorem build_signatures_lexicon (m : Morphology)
    (bigrams : List (Str × Str)) (side : Side) (mns : Nat) :
    (m.build_signatures bigrams side mns).lexicon = m.lexicon := by
  unfold Morphology.build_signatures
  refine foldl_preserve (P := fun m₀ : Morphology => m₀.lexicon = m.lexicon)
    ?_ ?_
  · intro b x hb
    split
    · split
      · show (Morphology.add_signature b _ _ side).lexicon = m.lexicon
        unfold Morphology.add_signature Morphology.set_sig_dict
        cases side <;> simpa using hb
      · show (Morphology.add_signature b _ _ side).lexicon = m.lexicon
        unfold Morphology.add_signature Morphology.set_sig_dict
        cases side <;> simpa using hb
    · exact hb
  · show (m.set_sig_dict side []).lexicon = m.lexicon
    unfold Morphology.set_sig_dict
    cases side <;> rfl

theorem mark_analysis_run_lexicon (m : Morphology) (side : Side) (f : Str) :
    (m.mark_analysis_run side f).lexicon = m.lexicon := by
  unfold Morphology.mark_analysis_run
  cases side <;> rfl

end Pycrab

namespace Pycrab

theorem get_biography_fst_respells {side : Side} {k : Str} {w : Word}
    {func : Str} (hw : word_wf side k w) :
    ∀ q ∈ (w.get_biography func side).1, parse_respells side k q := by
  obtain ⟨-, -, hbio, -⟩ := hw
  cases side with
  | prefixal =>
      intro q hq
      rcases hl : alookup func w.prefixal_biography with _ | parses
      · have he : (w.get_biography func Side.prefixal).1 = [] := by
          unfold Word.get_biography
          rw [hl]
        rw [he] at hq
        simp at hq
      · have he : (w.get_biography func Side.prefixal).1 = parses := by
          unfold Word.get_biography
          rw [hl]
        rw [he] at hq
        exact hbio (func, parses) (alookup_mem hl) q hq
  | suffixal =>
      intro q hq
      rcases hl : alookup func w.suffixal_biography with _ | parses
      · have he : (w.get_biography func Side.suffixal).1 = [] := by
          unfold Word.get_biography
          rw [hl]
        rw [he] at hq
        simp at hq
      · have he : (w.get_biography func Side.suffixal).1 = parses := by
          unfold Word.get_biography
          rw [hl]
        rw [he] at hq
        exact hbio (func, parses) (alookup_mem hl) q hq

theorem word_wf_add_to_biography {side : Side} {k : Str} {w : Word}
    {func : Str} {p : Parse} (hw : word_wf side k w)
    (hp : parse_respells side k p) :
    word_wf side k (w.add_to_biography func p side) := by
  have hent : ∀ q ∈ parseSetAdd p (w.get_biography func side).1,
      parse_respells side k q := by
    intro q hq
    unfold parseSetAdd at hq
    split at hq
    · exact get_biography_fst_respells hw q hq
    · rcases List.mem_append.1 hq with hq | hq
      · exact get_biography_fst_respells hw q hq
      · simp only [List.mem_singleton] at hq
        exact hq ▸ hp
  obtain ⟨hform, hkm, hbio, _⟩ := hw
  cases side with
  | prefixal =>
      refine ⟨hform, hkm, ?_, ?_⟩
      · intro fe hfe
        rcases mem_upsert (show fe ∈ upsert func
            (parseSetAdd p (w.get_biography func Side.prefixal).1)
            w.prefixal_biography from hfe) with h | h
        · intro q hq
          rw [h] at hq
          exact hent q hq
        · exact hbio fe h
      · intro q hq
        exact hent q hq
  | suffixal =>
      refine ⟨hform, hkm, ?_, ?_⟩
      · intro fe hfe
        rcases mem_upsert (show fe ∈ upsert func
            (parseSetAdd p (w.get_biography func Side.suffixal).1)
            w.suffixal_biography from hfe) with h | h
        · intro q hq
          rw [h] at hq
          exact hent q hq
        · exact hbio fe h
      · intro q hq
        exact hent q hq

theorem word_wf_discard_from_biography {side : Side} {k : Str} {w : Word}
    {func : Str} {p : Parse} (hw : word_wf side k w) :
    word_wf side k (w.discard_from_biography func p side) := by
  have hent : ∀ q ∈ parseSetDiscard p (w.get_biography func side).1,
      parse_respells side k q := by
    intro q hq
    unfold parseSetDiscard at hq
    exact get_biography_fst_respells hw q (List.mem_filter.1 hq).1
  obtain ⟨hform, hkm, hbio, _⟩ := hw
  cases side with
  | prefixal =>
      refine ⟨hform, hkm, ?_, ?_⟩
      · intro fe hfe
        rcases mem_upsert (show fe ∈ upsert func
            (parseSetDiscard p (w.get_biography func Side.prefixal).1)
            w.prefixal_biography from hfe) with h | h
        · intro q hq
          rw [h] at hq
          exact hent q hq
        · exact hbio fe h
      · intro q hq
        exact hent q hq
  | suffixal =>
      refine ⟨hform, hkm, ?_, ?_⟩
      · intro fe hfe
        rcases mem_upsert (show fe ∈ upsert func
            (parseSetDiscard p (w.get_biography func Side.suffixal).1)
            w.suffixal_biography from hfe) with h | h
        · intro q hq
          rw [h] at hq
          exact hent q hq
        · exact hbio fe h
      · intro q hq
        exact hent q hq

theorem lex_add_wf {m m2 : Morphology} {word func : Str} {p : Parse}
    {side : Side} (hwf : lexicon_wf m side)
    (hp : parse_respells side word p)
    (h : m.lex_add_to_biography word func p side = some m2) :
    lexicon_wf m2 side ∧ ∀ s, m2.sig_dict s = m.sig_dict s := by
  unfold Morphology.lex_add_to_biography at h
  simp only [Option.bind_eq_bind, Option.bind_eq_some, Option.pure_def,
    Option.some.injEq] at h
  obtain ⟨w, hw, hm2⟩ := h
  subst hm2
  constructor
  · intro kw hkw
    rcases mem_upsert (show kw ∈ upsert word
        (w.add_to_biography func p side) m.lexicon from hkw) with hk | hk
    · rw [hk]
      exact word_wf_add_to_biography (hwf (word, w) (alookup_mem hw)) hp
    · exact hwf kw hk
  · intro s
    exact lexicon_eq_sig_dict s

theorem lex_discard_wf {m m2 : Morphology} {word func : Str} {p : Parse}
    {side : Side} (hwf : lexicon_wf m side)
    (h : m.lex_discard_from_biography word func p side = some m2) :
    lexicon_wf m2 side ∧ ∀ s, m2.sig_dict s = m.sig_dict s := by
  unfold Morphology.lex_discard_from_biography at h
  simp only [Option.bind_eq_bind, Option.bind_eq_some, Option.pure_def,
    Option.some.injEq] at h
  obtain ⟨w, hw, hm2⟩ := h
  subst hm2
  constructor
  · intro kw hkw
    rcases mem_upsert (show kw ∈ upsert word
        (w.discard_from_biography func p side) m.lexicon from hkw) with hk | hk
    · rw [hk]
      exact word_wf_discard_from_biography (hwf (word, w) (alookup_mem hw))
    · exact hwf kw hk
  · intro s
    exact lexicon_eq_sig_dict s

end Pycrab

namespace Pycrab

theorem foldlM_preserve_rel_mem {α β : Type} {f : β → α → Option β}
    {R : β → β → Prop} (hrefl : ∀ b, R b b)
    (htrans : ∀ a b c, R a b → R b c → R a c) :
    ∀ {l : List α}, (∀ b x, x ∈ l → ∀ b', f b x = some b' → R b b') →
      ∀ {b b' : β}, List.foldlM f b l = some b' → R b b' := by
  intro l
  induction l with
  | nil =>
      intro _ b b' h
      simp only [List.foldlM_nil, Option.pure_def, Option.some.injEq] at h
      exact h ▸ hrefl b
  | cons x xs ih =>
      intro hf b b' h
      simp only [List.foldlM_cons, Option.pure_def, Option.bind_eq_bind] at h
      rcases hx : f b x with _ | b₁
      · rw [hx] at h
        simp at h
      · rw [hx] at h
        simp only [Option.some_bind] at h
        exact htrans _ _ _ (hf b x (List.mem_cons_self x xs) b₁ hx)
          (ih (fun b y hy => hf b y (List.mem_cons_of_mem _ hy)) h)

theorem mem_combos2 {l : List α} {p : α × α} :
    p ∈ combos2 l → p.1 ∈ l ∧ p.2 ∈ l := by
  induction l with
  | nil =>
      intro h
      simp [combos2] at h
  | cons x xs ih =>
      intro h
      unfold combos2 at h
      rcases List.mem_append.1 h with h | h
      · simp only [List.mem_map] at h
        obtain ⟨y, hy, rfl⟩ := h
        exact ⟨List.mem_cons_self x xs, List.mem_cons_of_mem _ hy⟩
      · obtain ⟨h1, h2⟩ := ih h
        exact ⟨List.mem_cons_of_mem _ h1, List.mem_cons_of_mem _ h2⟩

theorem sig_bigram_noMarker {sig : Sig}
    (hs : ∀ s ∈ keysOf sig.stems, noMarker s)
    (ha : ∀ a ∈ keysOf sig.affixes, noMarker a) :
    ∀ bg ∈ sig.bigrams, noMarker bg.1 ∧ noMarker bg.2 := by
  intro bg hbg
  unfold Sig.bigrams at hbg
  cases hside : sig.affix_side with
  | suffixal =>
      rw [hside] at hbg
      simp only [List.mem_flatMap, List.mem_map] at hbg
      obtain ⟨s, hsm, a, ham, rfl⟩ := hbg
      exact ⟨hs s hsm, ha a ham⟩
  | prefixal =>
      rw [hside] at hbg
      simp only [List.mem_flatMap, List.mem_map] at hbg
      obtain ⟨a, ham, s, hsm, rfl⟩ := hbg
      exact ⟨ha a ham, hs s hsm⟩

theorem upsert_setAdd_inv {K A : Type} [DecidableEq K] [DecidableEq A]
    {P : A → Prop} {acc : List (K × List A)} {k : K} {x : A}
    (hacc : ∀ e ∈ acc, ∀ a ∈ e.2, P a) (hx : P x) :
    ∀ e ∈ upsert k (setAdd x ((alookup k acc).getD []) ) acc,
      ∀ a ∈ e.2, P a := by
  intro e he a ha
  rcases mem_upsert he with rfl | hold
  · rcases mem_setAdd.1 ha with rfl | ha2
    · exact hx
    · rcases hl : alookup k acc with _ | l
      · rw [hl] at ha2
        simp at ha2
      · rw [hl] at ha2
        exact hacc (k, l) (alookup_mem hl) a ha2
  · exact hacc e hold a ha

theorem noMarker_bigram_stem {bg : Str × Str} (side : Side)
    (h1 : noMarker bg.1) (h2 : noMarker bg.2) :
    noMarker (match side with
      | Side.prefixal => bg.2
      | Side.suffixal => bg.1) := by
  cases side with
  | prefixal => exact h2
  | suffixal => exact h1

theorem noMarker_diff {short_stem long_stem : Str} (side : Side)
    (hlong : noMarker long_stem) :
    noMarker (match side with
      | Side.suffixal => long_stem.drop short_stem.length
      | Side.prefixal => pySliceDropLastN short_stem.length long_stem) := by
  cases side with
  | suffixal => exact noMarker_drop hlong _
  | prefixal => exact noMarker_pySliceDropLastN hlong _

theorem word_to_analyses_stems {m : Morphology} {side : Side}
    (hclean : sig_morphemes_clean m side) :
    ∀ e ∈ m.word_to_analyses side, ∀ sa ∈ e.2, noMarker sa.1 := by
  unfold Morphology.word_to_analyses
  refine foldl_preserve_mem
    (P := fun acc : List (Str × List (Str × Str)) =>
      ∀ e ∈ acc, ∀ sa ∈ e.2, noMarker sa.1) ?_ ?_
  · intro acc sig hsig hacc
    obtain ⟨hstems, haffs⟩ := hclean sig hsig
    refine foldl_preserve_mem
      (P := fun acc : List (Str × List (Str × Str)) =>
        ∀ e ∈ acc, ∀ sa ∈ e.2, noMarker sa.1) ?_ hacc
    intro acc2 bg hbg hacc2
    have hmk := sig_bigram_noMarker hstems haffs bg hbg
    exact upsert_setAdd_inv hacc2 (noMarker_bigram_stem side hmk.1 hmk.2)
  · intro e he
    simp at he

theorem biparse_groups_ok {m : Morphology} {side : Side}
    {groups : List ((Str × Str × Str) × List Str)}
    (hclean : sig_morphemes_clean m side)
    (h : m.biparse_to_stems side = some groups) :
    ∀ g ∈ groups, noMarker g.1.1 ∧ ∀ st ∈ g.2, noMarker st := by
  have hana := word_to_analyses_stems hclean
  unfold Morphology.biparse_to_stems at h
  refine foldlM_preserve_rel_mem
    (R := fun a b : List ((Str × Str × Str) × List Str) =>
      (∀ g ∈ a, noMarker g.1.1 ∧ ∀ st ∈ g.2, noMarker st) →
      (∀ g ∈ b, noMarker g.1.1 ∧ ∀ st ∈ g.2, noMarker st))
    (fun b hb => hb) (fun a b c hab hbc hP => hbc (hab hP)) ?_ h
    (fun g hg => absurd hg (List.not_mem_nil g))
  intro b wa hwa b' hstep
  split at hstep
  · simp only [Option.pure_def, Option.some.injEq] at hstep
    exact hstep ▸ id
  · refine foldlM_preserve_rel_mem
      (R := fun a b : List ((Str × Str × Str) × List Str) =>
        (∀ g ∈ a, noMarker g.1.1 ∧ ∀ st ∈ g.2, noMarker st) →
        (∀ g ∈ b, noMarker g.1.1 ∧ ∀ st ∈ g.2, noMarker st))
      (fun b hb => hb) (fun a b c hab hbc hP => hbc (hab hP)) ?_ hstep
    intro b2 pair hpair b2' hs2
    have hp1 := (mem_combos2 hpair).1
    have hp2 := (mem_combos2 hpair).2
    rw [mem_sortBy] at hp1 hp2
    have hshort : noMarker pair.1.1 := hana wa hwa pair.1 hp1
    have hlong : noMarker pair.2.1 := hana wa hwa pair.2 hp2
    obtain ⟨p1, p2⟩ := pair
    obtain ⟨short_stem, sss⟩ := p1
    obtain ⟨long_stem, lss⟩ := p2
    simp only at hshort hlong
    simp only [Option.bind_eq_bind, Option.bind_eq_some] at hs2
    obtain ⟨long_sig, _, hs3⟩ := hs2
    obtain ⟨gate, _, hs4⟩ := hs3
    split at hs4
    · simp only [Option.pure_def, Option.some.injEq] at hs4
      subst hs4
      intro hP g hg
      refine ⟨?_, upsert_setAdd_inv (fun e he a ha => (hP e he).2 a ha)
        hshort g hg⟩
      rcases mem_upsert hg with rfl | hold
      · exact noMarker_diff side hlong
      · exact (hP g hold).1
    · simp only [Option.pure_def, Option.some.injEq] at hs4
      exact hs4 ▸ id

end Pycrab

namespace Pycrab

theorem sjoin_nil_nil : sjoin [] ([] : List Str) = [] := rfl

theorem lexicon_wf_congr {m₁ m₂ : Morphology} {side : Side}
    (he : m₂.lexicon = m₁.lexicon) (h : lexicon_wf m₁ side) :
    lexicon_wf m₂ side := fun kw hkw => h kw (he ▸ hkw)

theorem respells_three {side : Side} {stem diff indexed_diff affix : Str}
    (hst : noMarker stem) (haf : noMarker affix) :
    remove_disambiguation_index side indexed_diff = diff →
    parse_respells side
      ((switch_if_needed ((match side with
          | Side.suffixal => stem ++ diff
          | Side.prefixal => diff ++ stem), affix) side).1
        ++ (switch_if_needed ((match side with
          | Side.suffixal => stem ++ diff
          | Side.prefixal => diff ++ stem), affix) side).2)
      (Parse.mk (switch3_if_needed (stem, indexed_diff, affix) side)) := by
  cases side with
  | suffixal =>
      intro hrm
      unfold parse_respells switch_if_needed switch3_if_needed
      simp only [List.map_cons, List.map_nil]
      rw [remove_disambiguation_index_id hst,
        remove_disambiguation_index_id haf, hrm]
      rw [sjoin_nil_cons, sjoin_nil_cons, sjoin_nil_cons, sjoin_nil_nil,
        List.append_nil]
      rw [List.append_assoc]
  | prefixal =>
      intro hrm
      unfold parse_respells switch_if_needed switch3_if_needed
      simp only [List.map_cons, List.map_nil]
      rw [remove_disambiguation_index_id hst,
        remove_disambiguation_index_id haf, hrm]
      rw [sjoin_nil_cons, sjoin_nil_cons, sjoin_nil_cons, sjoin_nil_nil,
        List.append_nil]

theorem split_rewire1_affix_pres {func : Str} {side : Side}
    {diff stem : Str} {acc acc' : List (Str × Str) × Morphology}
    {affix : Str} {D : List (Str × Sig)}
    (hP : lexicon_wf acc.2 side ∧ acc.2.sig_dict side = D)
    (h : Morphology.split_rewire1_affix func side diff stem acc affix
      = some acc') :
    lexicon_wf acc'.2 side ∧ acc'.2.sig_dict side = D := by
  obtain ⟨bigrams, mm⟩ := acc
  unfold Morphology.split_rewire1_affix at h
  dsimp only at h
  by_cases hc : List.isPrefixOf diff affix = true
  · rw [if_pos hc] at h
    simp only [Option.bind_eq_bind, Option.bind_eq_some, Option.pure_def,
      Option.some.injEq] at h
    obtain ⟨m2, hm2, rfl⟩ := h
    obtain ⟨hwf2, hsig2⟩ := lex_discard_wf hP.1 hm2
    exact ⟨hwf2, (hsig2 side).trans hP.2⟩
  · rw [if_neg hc] at h
    simp only [Option.pure_def, Option.some.injEq] at h
    exact h ▸ hP

theorem split_rewire1_stem_pres {func : Str} {side : Side}
    {diff indexed_diff : Str} {short_sig : Sig}
    {acc acc' : List (Str × Str) × Morphology} {stem : Str}
    {D : List (Str × Sig)}
    (hP : lexicon_wf acc.2 side ∧ acc.2.sig_dict side = D)
    (h : Morphology.split_rewire1_stem func side diff indexed_diff short_sig
      acc stem = some acc') :
    lexicon_wf acc'.2 side ∧ acc'.2.sig_dict side = D := by
  obtain ⟨bigrams, mm⟩ := acc
  unfold Morphology.split_rewire1_stem at h
  exact foldlM_preserve_rel
    (R := fun a b : List (Str × Str) × Morphology =>
      (lexicon_wf a.2 side ∧ a.2.sig_dict side = D) →
      (lexicon_wf b.2 side ∧ b.2.sig_dict side = D))
    (fun b hb => hb) (fun a b c hab hbc hp => hbc (hab hp))
    (fun b x b' hx hp => split_rewire1_affix_pres hp hx) h hP

theorem split_rewire2_stem_pres {func : Str} {side : Side}
    {diff indexed_diff affix : Str}
    {acc acc' : List (Str × Str) × Morphology} {stem : Str}
    {D : List (Str × Sig)}
    (hst : noMarker stem) (haf : noMarker affix)
    (hrm : remove_disambiguation_index side indexed_diff = diff)
    (hP : lexicon_wf acc.2 side ∧ acc.2.sig_dict side = D)
    (h : Morphology.split_rewire2_stem func side diff indexed_diff affix
      acc stem = some acc') :
    lexicon_wf acc'.2 side ∧ acc'.2.sig_dict side = D := by
  obtain ⟨bigrams, mm⟩ := acc
  unfold Morphology.split_rewire2_stem at h
  simp only [Option.bind_eq_bind, Option.bind_eq_some, Option.pure_def,
    Option.some.injEq] at h
  obtain ⟨m2, hm2, m3, hm3, rfl⟩ := h
  obtain ⟨hwf2, hsig2⟩ := lex_discard_wf hP.1 hm2
  obtain ⟨hwf3, hsig3⟩ := lex_add_wf hwf2 (respells_three hst haf hrm) hm3
  exact ⟨hwf3, ((hsig3 side).trans (hsig2 side)).trans hP.2⟩

theorem split_rewire2_affix_pres {func : Str} {side : Side}
    {diff indexed_diff : Str} {short_stems : List Str}
    {acc acc' : List (Str × Str) × Morphology} {affix : Str}
    {D : List (Str × Sig)}
    (hstems : ∀ st ∈ short_stems, noMarker st) (haf : noMarker affix)
    (hrm : remove_disambiguation_index side indexed_diff = diff)
    (hP : lexicon_wf acc.2 side ∧ acc.2.sig_dict side = D)
    (h : Morphology.split_rewire2_affix func side diff indexed_diff
      short_stems acc affix = some acc') :
    lexicon_wf acc'.2 side ∧ acc'.2.sig_dict side = D := by
  obtain ⟨bigrams, mm⟩ := acc
  unfold Morphology.split_rewire2_affix at h
  exact foldlM_preserve_rel_mem
    (R := fun a b : List (Str × Str) × Morphology =>
      (lexicon_wf a.2 side ∧ a.2.sig_dict side = D) →
      (lexicon_wf b.2 side ∧ b.2.sig_dict side = D))
    (fun b hb => hb) (fun a b c hab hbc hp => hbc (hab hp))
    (fun b st hstm b' hb hp =>
      split_rewire2_stem_pres (hstems st hstm) haf hrm hp hb) h hP

theorem get_signature_toOption {m : Morphology} {aff : Str} {side : Side}
    {sig : Sig} (h : (m.get_signature aff side).toOption = some sig) :
    alookup aff (m.sig_dict side) = some sig := by
  unfold Morphology.get_signature at h
  rcases hl : alookup aff (m.sig_dict side) with _ | s
  · rw [hl] at h
    simp [Except.toOption] at h
  · rw [hl] at h
    simp only [Except.toOption] at h
    exact h

end Pycrab

namespace Pycrab

theorem process_biparse_pres {func : Str} {side : Side}
    {acc acc' : List (Str × Str) × Morphology}
    {group : (Str × Str × Str) × List Str} {D : List (Str × Sig)}
    (hg1 : noMarker group.1.1) (hg2 : ∀ st ∈ group.2, noMarker st)
    (hD : ∀ kv ∈ D, ∀ a ∈ keysOf kv.2.affixes, noMarker a)
    (hP : lexicon_wf acc.2 side ∧ acc.2.sig_dict side = D)
    (h : Morphology.process_biparse func side acc group = some acc') :
    lexicon_wf acc'.2 side ∧ acc'.2.sig_dict side = D := by
  obtain ⟨bigrams, mm⟩ := acc
  obtain ⟨⟨diff, sss, lss⟩, stems⟩ := group
  simp only at hg1 hg2 hP
  unfold Morphology.process_biparse at h
  dsimp only at h
  rcases hidx : mm.add_new_index diff side with ⟨indexed_diff, m1⟩
  rw [hidx] at h
  dsimp only at h
  have h1wf : lexicon_wf m1 side := by
    refine lexicon_wf_congr ?_ hP.1
    have he := add_new_index_lexicon mm diff side
    rw [hidx] at he
    exact he
  have h1sig : m1.sig_dict side = D := by
    have he := add_new_index_sig_dict mm diff side side
    rw [hidx] at he
    exact he.trans hP.2
  have hrm : remove_disambiguation_index side indexed_diff = diff := by
    have he := @remove_add_new_index mm diff side hg1
    rw [hidx] at he
    exact he
  simp only [Option.bind_eq_bind, Option.bind_eq_some] at h
  obtain ⟨short_sig, hss, long_sig, hls, bm, hbm, hfin⟩ := h
  have hlsD : (lss, long_sig) ∈ D := by
    have hl := get_signature_toOption hls
    rw [h1sig] at hl
    exact alookup_mem hl
  have hP1 : lexicon_wf (bigrams, m1).2 side
      ∧ (bigrams, m1).2.sig_dict side = D := ⟨h1wf, h1sig⟩
  have hPbm : lexicon_wf bm.2 side ∧ bm.2.sig_dict side = D :=
    foldlM_preserve_rel
      (R := fun a b : List (Str × Str) × Morphology =>
        (lexicon_wf a.2 side ∧ a.2.sig_dict side = D) →
        (lexicon_wf b.2 side ∧ b.2.sig_dict side = D))
      (fun b hb => hb) (fun a b c hab hbc hp => hbc (hab hp))
      (fun b x b' hx hp => split_rewire1_stem_pres hp hx) hbm hP1
  exact foldlM_preserve_rel_mem
    (R := fun a b : List (Str × Str) × Morphology =>
      (lexicon_wf a.2 side ∧ a.2.sig_dict side = D) →
      (lexicon_wf b.2 side ∧ b.2.sig_dict side = D))
    (fun b hb => hb) (fun a b c hab hbc hp => hbc (hab hp))
    (fun b af hafm b' hb hp =>
      split_rewire2_affix_pres hg2 (hD (lss, long_sig) hlsD af hafm) hrm
        hp hb) hfin hPbm

theorem get_parses_respells {side : Side} {k : Str} {w : Word}
    (hw : word_wf side k w) :
    ∀ p ∈ w.get_parses side, parse_respells side k p := by
  obtain ⟨hform, hkm, _, hpar⟩ := hw
  cases side with
  | prefixal =>
      intro p hp
      have he : w.get_parses Side.prefixal
          = if w.prefixal_parses = [] then [Parse.mk [w.form]]
            else w.prefixal_parses := rfl
      rw [he] at hp
      by_cases hc : w.prefixal_parses = []
      · rw [if_pos hc] at hp
        simp only [List.mem_singleton] at hp
        subst hp
        unfold parse_respells
        simp only [List.map_cons, List.map_nil]
        rw [hform, remove_disambiguation_index_id hkm]
        rw [sjoin_nil_cons, sjoin_nil_nil, List.append_nil]
      · rw [if_neg hc] at hp
        exact hpar p hp
  | suffixal =>
      intro p hp
      have he : w.get_parses Side.suffixal
          = if w.suffixal_parses = [] then [Parse.mk [w.form]]
            else w.suffixal_parses := rfl
      rw [he] at hp
      by_cases hc : w.suffixal_parses = []
      · rw [if_pos hc] at hp
        simp only [List.mem_singleton] at hp
        subst hp
        unfold parse_respells
        simp only [List.map_cons, List.map_nil]
        rw [hform, remove_disambiguation_index_id hkm]
        rw [sjoin_nil_cons, sjoin_nil_nil, List.append_nil]
      · rw [if_neg hc] at hp
        exact hpar p hp

theorem copy_parses_step_pres {func : Str} {side : Side} {m m2 : Morphology}
    {kw : Str × Word} {D : List (Str × Sig)}
    (hw : word_wf side kw.1 kw.2)
    (hP : lexicon_wf m side ∧ m.sig_dict side = D)
    (h : Morphology.copy_parses_step func side m kw = some m2) :
    lexicon_wf m2 side ∧ m2.sig_dict side = D := by
  unfold Morphology.copy_parses_step at h
  have hresp := get_parses_respells hw
  exact foldlM_preserve_rel_mem
    (R := fun a b : Morphology =>
      (lexicon_wf a side ∧ a.sig_dict side = D) →
      (lexicon_wf b side ∧ b.sig_dict side = D))
    (fun b hb => hb) (fun a b c hab hbc hp => hbc (hab hp))
    (fun b p hp b' hb hq =>
      have h2 := lex_add_wf hq.1 (hresp p hp) hb
      ⟨h2.1, (h2.2 side).trans hq.2⟩) h hP

end Pycrab

namespace Pycrab

/-- C1 counterexample: on the biparse morphology, `split_affixes` succeeds
and leaves a biography parse (the new three-morpheme parse
`bowl` + `ing:1` + `s`) whose raw morpheme concatenation is not the word's
surface form: the middle morpheme carries the `:1` disambiguation index. -/
theorem claim_C1_counterexample :
    ∃ m', biparseMorphology.split_affixes Side.suffixal = some m'
      ∧ ∃ kw ∈ m'.lexicon, ∃ fe ∈ kw.2.biography Side.suffixal,
          ∃ p ∈ fe.2, sjoin [] p.morphemes ≠ kw.1 := by
  refine ⟨(biparseMorphology.split_affixes Side.suffixal).getD
    Morphology.empty, ?_, ?_⟩
  · decide
  · decide

/-- C1 (amended): if every biography parse and current parse of every
lexicon word respells the word once disambiguation indices are removed,
and the signature morphemes carry no index marker yet, then after
`split_affixes` every biography parse and current parse — including the
new three-morpheme parses made of short stem, indexed diff and residue
affix — still respells its word's exact surface form modulo removal of
the disambiguation index.  The raw concatenation claim fails: the indexed
middle morpheme spells `diff + ":1"`, not `diff` (see the
counterexample). -/
theorem claim_C1_split_affixes_respells (m m' : Morphology) (side : Side)
    (hwf : lexicon_wf m side) (hclean : sig_morphemes_clean m side)
    (h : m.split_affixes side = some m') : lexicon_wf m' side := by
  unfold Morphology.split_affixes at h
  simp only [Option.bind_eq_bind, Option.bind_eq_some] at h
  obtain ⟨groups, hgroups, m1, hm1, x, hx, hfin⟩ := h
  obtain ⟨bigrams2, m2⟩ := x
  dsimp only at hfin
  simp only [Option.pure_def, Option.some.injEq] at hfin
  subst hfin
  have hD : ∀ kv ∈ m.sig_dict side, ∀ a ∈ keysOf kv.2.affixes, noMarker a :=
    fun kv hkv => (hclean kv.2 (List.mem_map.2 ⟨kv, hkv, rfl⟩)).2
  have hgok := biparse_groups_ok hclean hgroups
  have hP1 : lexicon_wf m1 side ∧ m1.sig_dict side = m.sig_dict side :=
    foldlM_preserve_rel_mem
      (R := fun a b : Morphology =>
        (lexicon_wf a side ∧ a.sig_dict side = m.sig_dict side) →
        (lexicon_wf b side ∧ b.sig_dict side = m.sig_dict side))
      (fun b hb => hb) (fun a b c hab hbc hp => hbc (hab hp))
      (fun b kw hkw b' hb hp => copy_parses_step_pres (hwf kw hkw) hp hb)
      hm1 ⟨hwf, rfl⟩
  have hP2 : lexicon_wf (bigrams2, m2).2 side
      ∧ (bigrams2, m2).2.sig_dict side = m.sig_dict side :=
    foldlM_preserve_rel_mem
      (R := fun a b : List (Str × Str) × Morphology =>
        (lexicon_wf a.2 side ∧ a.2.sig_dict side = m.sig_dict side) →
        (lexicon_wf b.2 side ∧ b.2.sig_dict side = m.sig_dict side))
      (fun b hb => hb) (fun a b c hab hbc hp => hbc (hab hp))
      (fun b g hg b' hb hp =>
        process_biparse_pres (hgok g hg).1 (hgok g hg).2 hD hp hb)
      hx ⟨hP1.1, hP1.2⟩
  refine lexicon_wf_congr ?_ hP2.1
  rw [mark_analysis_run_lexicon, build_signatures_lexicon]

/-- C1 witness: the amended theorem applied to the concrete biparse
morphology, whose initial empty biographies are trivially well-formed. -/
theorem claim_C1_witness :
    lexicon_wf ((biparseMorphology.split_affixes Side.suffixal).getD
      Morphology.empty) Side.suffixal := by
  rcases hE : biparseMorphology.split_affixes Side.suffixal with _ | m2
  · exact absurd hE (by decide)
  · have h2 := claim_C1_split_affixes_respells biparseMorphology m2
      Side.suffixal (by decide) (by decide) hE
    simpa [hE] using h2

end Pycrab

namespace Pycrab

theorem entropy_nil :
    entropy ([] : List (Str × Nat)) = Except.error (lit "math domain error") :=
  rfl

theorem counter_fold_pos {f : Str → Str} :
    ∀ (l : List Str) (acc : List (Str × Nat)), l ≠ [] →
      ∃ kv ∈ l.foldl (fun a s => counterAdd (f s) 1 a) acc, kv.2 ≠ 0 := by
  intro l
  induction l with
  | nil =>
      intro acc h
      exact absurd rfl h
  | cons x xs ih =>
      intro acc _
      rw [List.foldl_cons]
      cases xs with
      | nil =>
          rw [List.foldl_nil]
          exact ⟨(f x, countOf (f x) acc + 1),
            alookup_mem (alookup_upsert_self acc), Nat.succ_ne_zero _⟩
      | cons y ys => exact ih _ (by simp)

/-- C7 (amended): when some stripped stem is shorter than `num_letters`,
`get_edge_entropy` raises the validation `ValueError` before any entropy
computation and returns no value; when the signature has no stems at all,
validation passes vacuously but `utils.entropy` receives an empty counter
and raises `ValueError: math domain error`, so again no value is returned;
when every stem is long enough, at least one stem exists and
`num_letters ≥ 1`, it returns the Shannon entropy over the stems' final
`num_letters`-letter sequences (at `num_letters = 0` it instead computes
the entropy over the whole stems; see the counterexample). -/
theorem claim_C7_edge_entropy_validation (sig : Sig) (n : Nat) :
    ((∃ stem ∈ keysOf sig.stripped_stems, stem.length < n) →
       sig.get_edge_entropy n
         = Except.error (lit "Signature contains stems shorter than required number of letters for entropy calculation"))
    ∧ (keysOf sig.stripped_stems = [] →
       sig.get_edge_entropy n = Except.error (lit "math domain error"))
    ∧ ((∀ stem ∈ keysOf sig.stripped_stems, n ≤ stem.length) → 1 ≤ n →
       keysOf sig.stripped_stems ≠ [] →
       sig.get_edge_entropy n
         = Except.ok (entropyVal (sig.edge_entropy_counts_spec n))) := by
  refine ⟨?_, ?_, ?_⟩
  · intro h
    unfold Sig.get_edge_entropy
    rw [if_pos]
    rcases h with ⟨stem, hmem, hlt⟩
    rw [List.any_eq_true]
    exact ⟨stem, hmem, by simpa using hlt⟩
  · intro hempty
    unfold Sig.get_edge_entropy
    rw [hempty]
    have hc : sig.edge_entropy_counts n = [] := by
      unfold Sig.edge_entropy_counts
      rw [hempty]
      rfl
    rw [hc]
    simp [entropy_nil]
  · intro hall hn hne
    have hvalid : ¬((keysOf sig.stripped_stems).any
        (fun stem => stem.length < n) = true) := by
      rw [List.any_eq_true]
      push_neg
      intro stem hmem
      simpa using hall stem hmem
    unfold Sig.get_edge_entropy
    rw [if_neg hvalid, edge_entropy_counts_eq_spec hn]
    have hpos : ∃ kv ∈ sig.edge_entropy_counts_spec n, kv.2 ≠ 0 := by
      unfold Sig.edge_entropy_counts_spec
      exact counter_fold_pos _ _ hne
    obtain ⟨kv, hkvm, hkvp⟩ := hpos
    have hmem : kv.2
        ∈ ((sig.edge_entropy_counts_spec n).map (·.2)).filter (· ≠ 0) := by
      rw [List.mem_filter]
      exact ⟨List.mem_map.2 ⟨kv, hkvm, rfl⟩, by simpa using hkvp⟩
    have hle := List.single_le_sum
      (fun x _ => Nat.zero_le x) _ hmem
    unfold entropy
    rw [if_neg (by omega)]

/-- C7 witness: a one-letter stem fails validation for `num_letters = 2`;
a stem-less signature reaches the math-domain error of `utils.entropy`;
the stems {"ab","cd"} with `num_letters = 1` yield the entropy of their
final letters. -/
theorem claim_C7_witness :
    shortStemSig.get_edge_entropy 2
      = Except.error (lit "Signature contains stems shorter than required number of letters for entropy calculation")
    ∧ noStemSig.get_edge_entropy 1 = Except.error (lit "math domain error")
    ∧ abcdSig.get_edge_entropy 1
        = Except.ok (entropyVal (abcdSig.edge_entropy_counts_spec 1)) := by
  exact ⟨(claim_C7_edge_entropy_validation shortStemSig 2).1
           ⟨lit "a", by decide, by decide⟩,
         (claim_C7_edge_entropy_validation noStemSig 1).2.1 (by decide),
         (claim_C7_edge_entropy_validation abcdSig 1).2.2
           (by decide) (by decide) (by decide)⟩

end Pycrab
